import Mathlib

/-!
Verification of the calima (Saharan dust) event-detection core.

Shallow embedding of:
- `src/repository/model.py`        (data model),
- `src/repository/repository.py`   (read and write repositories over an
                                    in-memory database state),
- `src/repository/calima_detector.py` (`CalimaDetector`).

Modelling choices:
- timestamps are hour indices in `ℕ` (the code only compares and copies
  `datetime` values; `datetime.max` is modelled as `⊤ : WithTop ℕ`);
- measurement values are `ℚ` (`Option ℚ` for nullable fields);
- the MongoDB collections are lists inside an `AirDB` record; `order_by`
  is modelled by sorting the filtered collection;
- the write collaborator used by the scan loop is an abstract function
  (`CommitFn`), exactly as `CalimaDetector` receives an injected
  `modify_repo`; `detect_events` instantiates it with the Mongo-backed
  `add_calima_event`.
-/

namespace CalimaSpec

/-- `model.py` `AirQualityData`: embedded hourly measurement. -/
structure AirQualityData where
  timestamp : ℕ
  pm10 : Option ℚ
  pm25 : Option ℚ
  dust : Option ℚ
  aod : Option ℚ
  is_calima : Bool
deriving DecidableEq

/-- `model.py` `AirMeasurement`: a stored hourly measurement referencing a
location (the reference is modelled by the location name). -/
structure AirMeasurement where
  location : String
  data : AirQualityData
deriving DecidableEq

/-- `model.py` `CalimaEvent`: a detected dust episode.  The detector always
supplies concrete (non-null) peak numbers, so the peaks are plain `ℚ`. -/
structure CalimaEvent where
  location : String
  start_time : ℕ
  end_time : ℕ
  peak_pm10 : ℚ
  peak_dust : ℚ
  peak_aod : ℚ
deriving DecidableEq

/-- `model.py` `AirLocation`.  `created_at` is a plain timestamp. -/
structure AirLocation where
  name : String
  latitude : ℚ
  longitude : ℚ
  created_at : ℕ
deriving DecidableEq

/-- The database state behind both repositories (locations are identified by
their unique names). -/
structure AirDB where
  locations : List String
  measurements : List AirMeasurement
  events : List CalimaEvent
deriving DecidableEq

/-! ### model.py: the `created_at` default

In `model.py` the field is declared as
`created_at = DateTimeField(default=datetime.datetime.now(datetime.timezone.utc))`:
the default VALUE is computed once, when the class body is evaluated at
module-import time.  `airLocation_created_at_default` is that stored value, as a
function of the import time; creating a document without an explicit
`created_at` copies the stored default and never consults the creation-time
clock, which is why `mkAirLocation_default` ignores its `now` argument. -/

def airLocation_created_at_default (importTime : ℕ) : ℕ := importTime

/-- Construct an `AirLocation` without an explicit `created_at` at wall-clock
time `now` (for a module imported at `importTime`). -/
def mkAirLocation_default (importTime : ℕ) (name : String) (lat lon : ℚ)
    (now : ℕ) : AirLocation :=
  { name := name, latitude := lat, longitude := lon,
    created_at := airLocation_created_at_default importTime }

/-! ### calima_detector.py: the hour classifier -/

/-- `CalimaDetector.is_calima_from_values` (lines 51-89), translated branch by
branch.  A `none` value fails every comparison guarded by `is not None`. -/
def is_calima_from_values (pm10 pm25 dust aod : Option ℚ) : Bool :=
  -- dust very high
  if dust.any (fun d => d > 150) then true
  -- PM10 + AOD signature
  else if pm10.any (fun v => v > 50) && aod.any (fun a => a > 0.5) then true
  -- PM25 + PM10 in stronger episodes
  else if pm25.any (fun v => v > 35) && pm10.any (fun v => v > 60) then true
  else false

/-- `CalimaDetector.is_hour_calima` (lines 94-110). -/
def is_hour_calima (m : AirMeasurement) : Bool :=
  is_calima_from_values m.data.pm10 m.data.pm25 m.data.dust m.data.aod

/-! ### repository.py: read side (`ReadAirRepository`) -/

/-- Ascending `data.timestamp` order used by `order_by` on measurements. -/
def mLE (a b : AirMeasurement) : Prop :=
  a.data.timestamp ≤ b.data.timestamp

instance : DecidableRel mLE :=
  fun a b => Nat.decLe a.data.timestamp b.data.timestamp

instance : IsTotal AirMeasurement mLE :=
  ⟨fun a b => Nat.le_total a.data.timestamp b.data.timestamp⟩

instance : IsTrans AirMeasurement mLE :=
  ⟨fun _ _ _ h h' => Nat.le_trans h h'⟩

/-- Descending `start_time` order used by `order_by` on events. -/
def evGE (a b : CalimaEvent) : Prop :=
  b.start_time ≤ a.start_time

instance : DecidableRel evGE :=
  fun a b => Nat.decLe b.start_time a.start_time

instance : IsTotal CalimaEvent evGE :=
  ⟨fun a b => (Nat.le_total a.start_time b.start_time).symm⟩

instance : IsTrans CalimaEvent evGE :=
  ⟨fun _ _ _ h h' => Nat.le_trans h' h⟩

/-- `ReadAirRepository.get_measurements`: all measurements of the location,
sorted by timestamp; an unknown location yields `[]` (the `DoesNotExist`
branch). -/
def get_measurements (db : AirDB) (location_name : String) :
    List AirMeasurement :=
  if location_name ∈ db.locations then
    List.insertionSort mLE
      (db.measurements.filter (fun m => m.location == location_name))
  else []

/-- `ReadAirRepository.get_range`: measurements of the location with
`start ≤ timestamp ≤ stop`, sorted; an unknown location yields `[]`.
The upper bound lives in `WithTop ℕ` so that `datetime.max` is `⊤`. -/
def get_range (db : AirDB) (location_name : String) (start : ℕ)
    (stop : WithTop ℕ) : List AirMeasurement :=
  if location_name ∈ db.locations then
    List.insertionSort mLE
      (db.measurements.filter (fun m =>
        m.location == location_name &&
        decide (start ≤ m.data.timestamp) &&
        decide ((m.data.timestamp : WithTop ℕ) ≤ stop)))
  else []

/-- `ReadAirRepository.get_calima_events`: events of the location, newest
start first; an unknown location yields `[]`. -/
def get_calima_events (db : AirDB) (location_name : String) :
    List CalimaEvent :=
  if location_name ∈ db.locations then
    List.insertionSort evGE
      (db.events.filter (fun e => e.location == location_name))
  else []

/-! ### repository.py: write side (`ModifyAirRepository`) -/

/-- `ModifyAirRepository.add_calima_event` (lines 188-216): on an unknown
location return the failure sentinel (`None`) and leave the store unchanged;
otherwise create the event document, save it, and return it. -/
def add_calima_event (db : AirDB) (location_name : String)
    (start stop : ℕ) (peak_pm10 peak_dust peak_aod : ℚ) :
    Option CalimaEvent × AirDB :=
  if location_name ∈ db.locations then
    let event : CalimaEvent :=
      { location := location_name, start_time := start, end_time := stop,
        peak_pm10 := peak_pm10, peak_dust := peak_dust,
        peak_aod := peak_aod }
    (some event, { db with events := db.events ++ [event] })
  else (none, db)

/-! ### calima_detector.py: the episode scan -/

/-- Python `x or 0` on an optional float: `None` and `0.0` are falsy and give
`0`, any other value passes through. -/
def pyOrZero (v : Option ℚ) : ℚ :=
  match v with
  | none => 0
  | some x => if x = 0 then 0 else x

/-- The loop state of `detect_events` (lines 168-172): `current_start`, the
three running peaks, `run_len`, and the timestamp of the previously scanned
measurement (`measurements[i-1]`, read only while a run is open, in which
case at least one measurement precedes the current one). -/
structure ScanState where
  current_start : Option ℕ
  peak_pm10 : ℚ
  peak_dust : ℚ
  peak_aod : ℚ
  run_len : ℕ
  prev_ts : ℕ
deriving DecidableEq

/-- The state before the first loop iteration (`prev_ts` is an arbitrary
placeholder, never read while `current_start = none`). -/
def initScanState : ScanState :=
  { current_start := none, peak_pm10 := 0, peak_dust := 0, peak_aod := 0,
    run_len := 0, prev_ts := 0 }

/-- The write collaborator as the scan loop sees it:
`modify_repo.add_calima_event(location, start, end, peaks...)`, returning the
created episode or the failure sentinel `none`. -/
def CommitFn : Type :=
  ℕ → ℕ → ℚ → ℚ → ℚ → Option CalimaEvent

/-- The `for` loop of `detect_events` (lines 177-214), one constructor per
branch of the Python code.  Returns the list of successfully committed events
(in commit order) together with the final loop state. -/
def scanGo (commit : CommitFn) :
    List AirMeasurement → ScanState → List CalimaEvent × ScanState
  | [], st => ([], st)
  | m :: ms, st =>
    if is_hour_calima m then
      -- start a new run or continue, then update run_len and the peaks
      let start : ℕ :=
        match st.current_start with
        | none => m.data.timestamp
        | some s => s
      let rl : ℕ :=
        (match st.current_start with
         | none => 0
         | some _ => st.run_len) + 1
      scanGo commit ms
        { current_start := some start,
          peak_pm10 := max st.peak_pm10 (pyOrZero m.data.pm10),
          peak_dust := max st.peak_dust (pyOrZero m.data.dust),
          peak_aod := max st.peak_aod (pyOrZero m.data.aod),
          run_len := rl,
          prev_ts := m.data.timestamp }
    else
      match st.current_start with
      | none =>
        -- no open run: just reset (a no-op for the committed list)
        scanGo commit ms { initScanState with prev_ts := m.data.timestamp }
      | some s =>
        -- end of run: persist only a CLOSED run of >= 3 hourly samples;
        -- end = measurements[i-1].data.timestamp = st.prev_ts
        let committed : List CalimaEvent :=
          if 3 ≤ st.run_len then
            match commit s st.prev_ts st.peak_pm10 st.peak_dust
                st.peak_aod with
            | some e => [e]
            | none => []
          else []
        let rest := scanGo commit ms
          { initScanState with prev_ts := m.data.timestamp }
        (committed ++ rest.1, rest.2)

/-- Lines 141-156 of `detect_events`: the series the scan operates on.  With
no stored event the full series is fetched, otherwise the sub-series from the
newest stored event's `end_time` (inclusive) to `datetime.max`. -/
def scannedSeries (db : AirDB) (location : String) : List AirMeasurement :=
  match ((get_calima_events db location).head?).map (fun e => e.end_time) with
  | none => get_measurements db location
  | some resume => get_range db location resume ⊤

/-- The scan's write collaborator instantiated with the Mongo-backed
repository: only the returned value of `add_calima_event` (which depends on
the database only through the unchanging `locations` collection). -/
def repoCommit (db : AirDB) (location : String) : CommitFn :=
  fun s e p d a => (add_calima_event db location s e p d a).1

/-- `CalimaDetector.detect_events` (lines 115-221).  Each successful
`add_calima_event` during the scan appends exactly the returned event to the
event collection and touches nothing else; since the scan never modifies the
location collection, the cumulative store effect is appending the returned
list, which is how the final state is formed here. -/
def detect_events (db : AirDB) (location : String) :
    List CalimaEvent × AirDB :=
  let measurements := scannedSeries db location
  if measurements.isEmpty then ([], db)
  else
    let events := (scanGo (repoCommit db location) measurements
      initScanState).1
    (events, { db with events := db.events ++ events })

/-! ### Run decomposition

`splitRunsAux run0 ms` replays the grouping performed by the scan loop at the
level of lists: `run0` is the run currently open, every non-calima hour
closes the open run (possibly empty) into a `(run, closer)` pair, and the
second component is the run still open when the series ends.  This is the
specification device against which the loop is proved. -/

def splitRunsAux :
    List AirMeasurement → List AirMeasurement →
      List (List AirMeasurement × AirMeasurement) × List AirMeasurement
  | run, [] => ([], run)
  | run, m :: ms =>
    if is_hour_calima m then splitRunsAux (run ++ [m]) ms
    else
      let r := splitRunsAux [] ms
      ((run, m) :: r.1, r.2)

/-- The closed runs of a series (each with its closing hour), and the
trailing open run. -/
def splitRuns (ms : List AirMeasurement) :
    List (List AirMeasurement × AirMeasurement) × List AirMeasurement :=
  splitRunsAux [] ms

/-- The timestamp of the first hour of a run (`current_start`). -/
def runStart : List AirMeasurement → ℕ
  | [] => 0
  | m :: _ => m.data.timestamp

/-- The timestamp of the last hour of a run (`measurements[i-1]` at the
closing hour). -/
def runEnd : List AirMeasurement → ℕ
  | [] => 0
  | [m] => m.data.timestamp
  | _ :: m :: ms => runEnd (m :: ms)

/-- Folding one running peak (`max(peak, value or 0)`) over a run. -/
def peakFold (f : AirQualityData → Option ℚ) (acc : ℚ)
    (run : List AirMeasurement) : ℚ :=
  run.foldl (fun a m => max a (pyOrZero (f m.data))) acc

/-- A running peak accumulated over a full run, starting from `0`. -/
def runPeak (f : AirQualityData → Option ℚ) (run : List AirMeasurement) : ℚ :=
  peakFold f 0 run

/-- A closed run together with its closing hour, as the contiguous slice of
the series it occupies. -/
def blockOf (pr : List AirMeasurement × AirMeasurement) :
    List AirMeasurement :=
  pr.1 ++ [pr.2]

/-- The episodes a given write collaborator accepts for the closed runs of a
series: qualifying runs (≥ 3 hourly samples) are offered in scan order, and
exactly the accepted ones are kept. -/
def commitsOf (commit : CommitFn)
    (prs : List (List AirMeasurement × AirMeasurement)) : List CalimaEvent :=
  prs.filterMap (fun pr =>
    if 3 ≤ pr.1.length then
      commit (runStart pr.1) (runEnd pr.1)
        (runPeak (fun d => d.pm10) pr.1)
        (runPeak (fun d => d.dust) pr.1)
        (runPeak (fun d => d.aod) pr.1)
    else none)

/-- The loop state corresponding to an open run: `none`-like reset state for
the empty run, otherwise start, peaks, length and last timestamp of the run. -/
def stateMatches (run : List AirMeasurement) (st : ScanState) : Prop :=
  match run with
  | [] =>
    st.current_start = none ∧ st.peak_pm10 = 0 ∧ st.peak_dust = 0 ∧
      st.peak_aod = 0 ∧ st.run_len = 0
  | _ :: _ =>
    st.current_start = some (runStart run) ∧
      st.peak_pm10 = runPeak (fun d => d.pm10) run ∧
      st.peak_dust = runPeak (fun d => d.dust) run ∧
      st.peak_aod = runPeak (fun d => d.aod) run ∧
      st.run_len = run.length ∧ st.prev_ts = runEnd run

/-- The event the Mongo-backed write collaborator stores for a qualifying
run. -/
def eventOf (location : String) (run : List AirMeasurement) : CalimaEvent :=
  { location := location, start_time := runStart run, end_time := runEnd run,
    peak_pm10 := runPeak (fun d => d.pm10) run,
    peak_dust := runPeak (fun d => d.dust) run,
    peak_aod := runPeak (fun d => d.aod) run }

/-- Strict ascending-timestamp order; the storage layer guarantees it for
the per-location series ((location, timestamp) is a unique index and
`order_by` sorts ascending). -/
def tsLT (a b : AirMeasurement) : Prop :=
  a.data.timestamp < b.data.timestamp

/-- The stored measurements of one location (unsorted). -/
def locMeasurements (db : AirDB) (location : String) : List AirMeasurement :=
  db.measurements.filter (fun m => m.location == location)

/-! ### Basic facts about the decomposition pieces -/

theorem runStart_concat_ne (run : List AirMeasurement) (m : AirMeasurement)
    (h : run ≠ []) : runStart (run ++ [m]) = runStart run := by
  cases run with
  | nil => exact absurd rfl h
  | cons a l => rfl

theorem runEnd_concat (run : List AirMeasurement) (m : AirMeasurement) :
    runEnd (run ++ [m]) = m.data.timestamp := by
  induction run with
  | nil => rfl
  | cons a l ih =>
    cases l with
    | nil => rfl
    | cons b t => simpa [runEnd] using ih

theorem peakFold_concat (f : AirQualityData → Option ℚ) (acc : ℚ)
    (run : List AirMeasurement) (m : AirMeasurement) :
    peakFold f acc (run ++ [m]) =
      max (peakFold f acc run) (pyOrZero (f m.data)) := by
  simp [peakFold, List.foldl_append]

theorem runPeak_concat (f : AirQualityData → Option ℚ)
    (run : List AirMeasurement) (m : AirMeasurement) :
    runPeak f (run ++ [m]) = max (runPeak f run) (pyOrZero (f m.data)) :=
  peakFold_concat f 0 run m

theorem runStart_mem (run : List AirMeasurement) (h : run ≠ []) :
    ∃ x ∈ run, runStart run = x.data.timestamp := by
  cases run with
  | nil => exact absurd rfl h
  | cons a l => exact ⟨a, List.mem_cons_self a l, rfl⟩

theorem runEnd_mem (run : List AirMeasurement) (h : run ≠ []) :
    ∃ x ∈ run, runEnd run = x.data.timestamp := by
  induction run with
  | nil => exact absurd rfl h
  | cons a l ih =>
    cases l with
    | nil => exact ⟨a, List.mem_cons_self a [], rfl⟩
    | cons b t =>
      obtain ⟨x, hx, he⟩ := ih (by simp)
      exact ⟨x, List.mem_cons_of_mem a hx, by simpa [runEnd] using he⟩

theorem sorted_runStart_le (run : List AirMeasurement)
    (hs : run.Pairwise tsLT) (x : AirMeasurement) (hx : x ∈ run) :
    runStart run ≤ x.data.timestamp := by
  cases run with
  | nil => cases hx
  | cons a l =>
    rcases List.mem_cons.mp hx with rfl | hx
    · exact le_refl _
    · exact le_of_lt ((List.pairwise_cons.mp hs).1 x hx)

theorem sorted_le_runEnd (run : List AirMeasurement)
    (hs : run.Pairwise tsLT) (x : AirMeasurement) (hx : x ∈ run) :
    x.data.timestamp ≤ runEnd run := by
  induction run with
  | nil => cases hx
  | cons a l ih =>
    cases l with
    | nil =>
      rcases List.mem_cons.mp hx with rfl | hx
      · exact le_refl _
      · cases hx
    | cons b t =>
      rcases List.mem_cons.mp hx with rfl | hx
      · obtain ⟨y, hy, he⟩ := runEnd_mem (b :: t) (by simp)
        have : tsLT x y := (List.pairwise_cons.mp hs).1 y hy
        simpa [runEnd, ← he] using le_of_lt this
      · simpa [runEnd] using ih (List.pairwise_cons.mp hs).2 hx

theorem sorted_runStart_lt_runEnd (run : List AirMeasurement)
    (hs : run.Pairwise tsLT) (h2 : 2 ≤ run.length) :
    runStart run < runEnd run := by
  cases run with
  | nil => simp at h2
  | cons a l =>
    cases l with
    | nil => simp at h2
    | cons b t =>
      have hb : tsLT a b := (List.pairwise_cons.mp hs).1 b (by simp)
      have : b.data.timestamp ≤ runEnd (b :: t) :=
        sorted_le_runEnd (b :: t) (List.pairwise_cons.mp hs).2 b (by simp)
      calc runStart (a :: b :: t) = a.data.timestamp := rfl
        _ < b.data.timestamp := hb
        _ ≤ runEnd (b :: t) := this
        _ = runEnd (a :: b :: t) := rfl

/-! ### The scan loop computes `commitsOf` over the run decomposition -/

theorem scanGo_eq_commitsOf_aux (commit : CommitFn) :
    ∀ (ms run0 : List AirMeasurement) (st : ScanState),
      stateMatches run0 st →
      (scanGo commit ms st).1 = commitsOf commit (splitRunsAux run0 ms).1 := by
  intro ms
  induction ms with
  | nil =>
    intro run0 st _
    simp [scanGo, splitRunsAux, commitsOf]
  | cons m ms ih =>
    intro run0 st hst
    by_cases hflag : is_hour_calima m
    · -- calima hour: the loop extends the open run
      rw [show splitRunsAux run0 (m :: ms) = splitRunsAux (run0 ++ [m]) ms by
        simp [splitRunsAux, hflag]]
      cases run0 with
      | nil =>
        obtain ⟨h1, h2, h3, h4, h5⟩ := hst
        simp only [scanGo, hflag, if_true, h1, h2, h3, h4, h5]
        apply ih
        refine ⟨rfl, ?_, ?_, ?_, ?_, rfl⟩ <;> simp [runPeak, peakFold]
      | cons a l =>
        obtain ⟨h1, h2, h3, h4, h5, h6⟩ := hst
        simp only [scanGo, hflag, if_true, h1, h2, h3, h4, h5]
        apply ih
        have hne : a :: l ≠ [] := by simp
        constructor
        · rw [runStart_concat_ne (a :: l) m hne]
        refine ⟨?_, ?_, ?_, ?_, ?_⟩
        · rw [runPeak_concat]
        · rw [runPeak_concat]
        · rw [runPeak_concat]
        · simp
        · rw [runEnd_concat]
    · -- non-calima hour: the loop closes the open run
      cases run0 with
      | nil =>
        obtain ⟨h1, _, _, _, _⟩ := hst
        rw [show splitRunsAux [] (m :: ms) =
            (([], m) :: (splitRunsAux [] ms).1, (splitRunsAux [] ms).2) by
          simp [splitRunsAux, hflag]]
        simp only [scanGo, hflag, if_false, h1]
        rw [show commitsOf commit ((([], m)) :: (splitRunsAux [] ms).1) =
            commitsOf commit (splitRunsAux [] ms).1 by
          simp [commitsOf, List.filterMap_cons]]
        exact ih [] _ ⟨rfl, rfl, rfl, rfl, rfl⟩
      | cons a l =>
        obtain ⟨h1, h2, h3, h4, h5, h6⟩ := hst
        rw [show splitRunsAux (a :: l) (m :: ms) =
            (((a :: l), m) :: (splitRunsAux [] ms).1,
              (splitRunsAux [] ms).2) by
          simp [splitRunsAux, hflag]]
        simp only [scanGo, hflag, if_false, h1, h2, h3, h4, h5, h6]
        have htail := ih [] { initScanState with prev_ts := m.data.timestamp }
          ⟨rfl, rfl, rfl, rfl, rfl⟩
        rw [htail]
        simp only [commitsOf, List.filterMap_cons]
        by_cases hlen : 3 ≤ (a :: l).length
        · have hlen2 : 2 ≤ l.length := by simpa using hlen
          cases hcm : commit (runStart (a :: l)) (runEnd (a :: l))
              (runPeak (fun d => d.pm10) (a :: l))
              (runPeak (fun d => d.dust) (a :: l))
              (runPeak (fun d => d.aod) (a :: l)) with
          | none => simp [hlen, hlen2, hcm]
          | some e => simp [hlen, hlen2, hcm]
        · have hlen2 : ¬ 2 ≤ l.length := by simpa using hlen
          simp [hlen, hlen2]

/-- The committed-event list of the scan, run from the initial state, is
`commitsOf` over the closed runs of the series. -/
theorem scanGo_commits (commit : CommitFn) (ms : List AirMeasurement) :
    (scanGo commit ms initScanState).1 =
      commitsOf commit (splitRuns ms).1 :=
  scanGo_eq_commitsOf_aux commit ms [] initScanState ⟨rfl, rfl, rfl, rfl, rfl⟩

/-! ### Structure of the run decomposition -/

/-- Every element of the series lands in exactly one block (closed run plus
its closing hour) or in the trailing open run, in order. -/
theorem splitRunsAux_flat :
    ∀ (ms run0 : List AirMeasurement),
      run0 ++ ms =
        ((splitRunsAux run0 ms).1.map blockOf).flatten ++
          (splitRunsAux run0 ms).2 := by
  intro ms
  induction ms with
  | nil => intro run0; simp [splitRunsAux]
  | cons m ms ih =>
    intro run0
    by_cases hflag : is_hour_calima m
    · rw [show splitRunsAux run0 (m :: ms) = splitRunsAux (run0 ++ [m]) ms by
        simp [splitRunsAux, hflag]]
      calc run0 ++ m :: ms = (run0 ++ [m]) ++ ms := by simp
        _ = _ := ih (run0 ++ [m])
    · rw [show splitRunsAux run0 (m :: ms) =
          ((run0, m) :: (splitRunsAux [] ms).1, (splitRunsAux [] ms).2) by
        simp [splitRunsAux, hflag]]
      have h0 := ih []
      simp only [List.nil_append] at h0
      calc run0 ++ m :: ms = (run0 ++ [m]) ++ ms := by simp
        _ = (run0 ++ [m]) ++
            (((splitRunsAux [] ms).1.map blockOf).flatten ++
              (splitRunsAux [] ms).2) := by rw [← h0]
        _ = _ := by simp [blockOf]

/-- Closed runs consist of calima hours and are closed by a non-calima hour;
the trailing open run consists of calima hours (provided the run handed in
does). -/
theorem splitRunsAux_shape :
    ∀ (ms run0 : List AirMeasurement),
      (∀ x ∈ run0, is_hour_calima x = true) →
      (∀ pr ∈ (splitRunsAux run0 ms).1,
        (∀ x ∈ pr.1, is_hour_calima x = true) ∧
          is_hour_calima pr.2 = false) ∧
      (∀ x ∈ (splitRunsAux run0 ms).2, is_hour_calima x = true) := by
  intro ms
  induction ms with
  | nil =>
    intro run0 h0
    constructor
    · intro pr hpr; simp [splitRunsAux] at hpr
    · intro x hx; exact h0 x (by simpa [splitRunsAux] using hx)
  | cons m ms ih =>
    intro run0 h0
    by_cases hflag : is_hour_calima m
    · rw [show splitRunsAux run0 (m :: ms) = splitRunsAux (run0 ++ [m]) ms by
        simp [splitRunsAux, hflag]]
      refine ih (run0 ++ [m]) ?_
      intro x hx
      rcases List.mem_append.mp hx with hx | hx
      · exact h0 x hx
      · simp at hx; subst hx; exact hflag
    · rw [show splitRunsAux run0 (m :: ms) =
          ((run0, m) :: (splitRunsAux [] ms).1, (splitRunsAux [] ms).2) by
        simp [splitRunsAux, hflag]]
      have hrec := ih [] (by intro x hx; cases hx)
      constructor
      · intro pr hpr
        rcases List.mem_cons.mp hpr with rfl | hpr
        · exact ⟨h0, by simpa using hflag⟩
        · exact hrec.1 pr hpr
      · exact hrec.2

/-- A series of calima hours only extends the open run and closes nothing. -/
theorem splitRunsAux_allTrue :
    ∀ (ms run0 : List AirMeasurement),
      (∀ x ∈ ms, is_hour_calima x = true) →
      splitRunsAux run0 ms = ([], run0 ++ ms) := by
  intro ms
  induction ms with
  | nil => intro run0 _; simp [splitRunsAux]
  | cons m ms ih =>
    intro run0 h
    have hm : is_hour_calima m = true := h m (by simp)
    rw [show splitRunsAux run0 (m :: ms) = splitRunsAux (run0 ++ [m]) ms by
      simp [splitRunsAux, hm]]
    rw [ih (run0 ++ [m]) (fun x hx => h x (List.mem_cons_of_mem m hx))]
    simp

/-- Scanning a block of calima hours first just moves it into the open run. -/
theorem splitRunsAux_truePrefix :
    ∀ (t run0 ms : List AirMeasurement),
      (∀ x ∈ t, is_hour_calima x = true) →
      splitRunsAux run0 (t ++ ms) = splitRunsAux (run0 ++ t) ms := by
  intro t
  induction t with
  | nil => intro run0 ms _; simp
  | cons a t ih =>
    intro run0 ms h
    have ha : is_hour_calima a = true := h a (by simp)
    rw [show splitRunsAux run0 ((a :: t) ++ ms) =
        splitRunsAux (run0 ++ [a]) (t ++ ms) by
      simp [splitRunsAux, ha]]
    rw [ih (run0 ++ [a]) ms (fun x hx => h x (List.mem_cons_of_mem a hx))]
    simp

/-- Appending after a prefix whose scan leaves no open run concatenates the
closed-run lists. -/
theorem splitRunsAux_closed_append :
    ∀ (A run0 B : List AirMeasurement),
      (splitRunsAux run0 A).2 = [] →
      splitRunsAux run0 (A ++ B) =
        ((splitRunsAux run0 A).1 ++ (splitRuns B).1, (splitRuns B).2) := by
  intro A
  induction A with
  | nil =>
    intro run0 B h
    have h0 : run0 = [] := by simpa [splitRunsAux] using h
    subst h0
    simp [splitRunsAux, splitRuns]
  | cons a A ih =>
    intro run0 B h
    by_cases hflag : is_hour_calima a
    · have hA : splitRunsAux run0 (a :: A) = splitRunsAux (run0 ++ [a]) A := by
        simp [splitRunsAux, hflag]
      rw [show splitRunsAux run0 ((a :: A) ++ B) =
          splitRunsAux (run0 ++ [a]) (A ++ B) by
        simp [splitRunsAux, hflag]]
      rw [hA] at h ⊢
      exact ih (run0 ++ [a]) B h
    · have hA : splitRunsAux run0 (a :: A) =
          ((run0, a) :: (splitRunsAux [] A).1, (splitRunsAux [] A).2) := by
        simp [splitRunsAux, hflag]
      rw [hA] at h ⊢
      rw [show splitRunsAux run0 ((a :: A) ++ B) =
          ((run0, a) :: (splitRunsAux [] (A ++ B)).1,
            (splitRunsAux [] (A ++ B)).2) by
        simp [splitRunsAux, hflag]]
      have h2 : splitRunsAux [] (A ++ B) =
          ((splitRunsAux [] A).1 ++ (splitRuns B).1, (splitRuns B).2) :=
        ih [] B (by simpa using h)
      rw [h2]
      simp

/-- A prefix ending in a non-calima hour leaves no open run. -/
theorem splitRunsAux_concat_false :
    ∀ (A run0 : List AirMeasurement) (a : AirMeasurement),
      is_hour_calima a = false →
      (splitRunsAux run0 (A ++ [a])).2 = [] := by
  intro A
  induction A with
  | nil =>
    intro run0 a ha
    simp [splitRunsAux, ha]
  | cons b A ih =>
    intro run0 a ha
    by_cases hflag : is_hour_calima b
    · rw [show splitRunsAux run0 ((b :: A) ++ [a]) =
          splitRunsAux (run0 ++ [b]) (A ++ [a]) by
        simp [splitRunsAux, hflag]]
      exact ih (run0 ++ [b]) a ha
    · rw [show splitRunsAux run0 ((b :: A) ++ [a]) =
          ((run0, b) :: (splitRunsAux [] (A ++ [a])).1,
            (splitRunsAux [] (A ++ [a])).2) by
        simp [splitRunsAux, hflag]]
      exact ih [] a ha

/-- Re-scanning the flattened blocks (and an all-calima tail) recovers the
same decomposition. -/
theorem splitRuns_rebuild :
    ∀ (prs : List (List AirMeasurement × AirMeasurement))
      (tail : List AirMeasurement),
      (∀ pr ∈ prs, (∀ x ∈ pr.1, is_hour_calima x = true) ∧
        is_hour_calima pr.2 = false) →
      (∀ x ∈ tail, is_hour_calima x = true) →
      splitRuns ((prs.map blockOf).flatten ++ tail) = (prs, tail) := by
  intro prs
  induction prs with
  | nil =>
    intro tail _ htail
    simpa [splitRuns] using splitRunsAux_allTrue tail [] htail
  | cons pr prs ih =>
    intro tail hprs htail
    obtain ⟨hrun, hcl⟩ := hprs pr (by simp)
    have hrest := ih tail (fun q hq => hprs q (List.mem_cons_of_mem pr hq))
      htail
    show splitRunsAux [] _ = _
    rw [show ((pr :: prs).map blockOf).flatten ++ tail =
        pr.1 ++ (pr.2 :: ((prs.map blockOf).flatten ++ tail)) by
      simp [blockOf]]
    rw [splitRunsAux_truePrefix pr.1 [] _ hrun]
    rw [show splitRunsAux ([] ++ pr.1)
          (pr.2 :: ((prs.map blockOf).flatten ++ tail)) =
        ((([] ++ pr.1), pr.2) ::
            (splitRunsAux [] ((prs.map blockOf).flatten ++ tail)).1,
          (splitRunsAux [] ((prs.map blockOf).flatten ++ tail)).2) by
      simp [splitRunsAux, hcl]]
    rw [show splitRunsAux [] ((prs.map blockOf).flatten ++ tail) =
        splitRuns ((prs.map blockOf).flatten ++ tail) from rfl, hrest]
    simp

/-! ### Facts about `commitsOf` and the Mongo-backed commit -/

theorem commitsOf_append (commit : CommitFn)
    (P Q : List (List AirMeasurement × AirMeasurement)) :
    commitsOf commit (P ++ Q) =
      commitsOf commit P ++ commitsOf commit Q := by
  simp [commitsOf, List.filterMap_append]

theorem commitsOf_eq_nil_of_short (commit : CommitFn)
    (prs : List (List AirMeasurement × AirMeasurement))
    (h : ∀ pr ∈ prs, pr.1.length < 3) :
    commitsOf commit prs = [] := by
  rw [commitsOf, List.filterMap_eq_nil_iff]
  intro pr hpr
  rw [if_neg]
  exact Nat.not_le_of_lt (h pr hpr)

theorem mem_commitsOf (commit : CommitFn)
    (prs : List (List AirMeasurement × AirMeasurement)) (e : CalimaEvent)
    (h : e ∈ commitsOf commit prs) :
    ∃ pr ∈ prs, 3 ≤ pr.1.length ∧
      commit (runStart pr.1) (runEnd pr.1)
        (runPeak (fun d => d.pm10) pr.1)
        (runPeak (fun d => d.dust) pr.1)
        (runPeak (fun d => d.aod) pr.1) = some e := by
  rw [commitsOf] at h
  obtain ⟨pr, hpr, he⟩ := List.mem_filterMap.mp h
  by_cases hlen : 3 ≤ pr.1.length
  · rw [if_pos hlen] at he
    exact ⟨pr, hpr, hlen, he⟩
  · rw [if_neg hlen] at he
    cases he

theorem repoCommit_pos (db : AirDB) (location : String)
    (hloc : location ∈ db.locations) (s e : ℕ) (p d a : ℚ) :
    repoCommit db location s e p d a =
      some { location := location, start_time := s, end_time := e,
             peak_pm10 := p, peak_dust := d, peak_aod := a } := by
  simp [repoCommit, add_calima_event, hloc]

theorem commitsOf_repo (db : AirDB) (location : String)
    (hloc : location ∈ db.locations)
    (prs : List (List AirMeasurement × AirMeasurement)) :
    commitsOf (repoCommit db location) prs =
      prs.filterMap (fun pr =>
        if 3 ≤ pr.1.length then some (eventOf location pr.1) else none) := by
  rw [commitsOf]
  apply List.filterMap_congr
  intro pr _
  by_cases hlen : 3 ≤ pr.1.length
  · rw [if_pos hlen, if_pos hlen, repoCommit_pos db location hloc]
    rfl
  · rw [if_neg hlen, if_neg hlen]

theorem mem_commitsOf_repo (db : AirDB) (location : String)
    (hloc : location ∈ db.locations)
    (prs : List (List AirMeasurement × AirMeasurement)) (e : CalimaEvent)
    (h : e ∈ commitsOf (repoCommit db location) prs) :
    ∃ pr ∈ prs, 3 ≤ pr.1.length ∧ e = eventOf location pr.1 := by
  obtain ⟨pr, hpr, hlen, hc⟩ := mem_commitsOf _ prs e h
  rw [repoCommit_pos db location hloc] at hc
  exact ⟨pr, hpr, hlen, by
    have := Option.some.inj hc
    rw [← this]
    rfl⟩

/-- Splitting a `filterMap` at its last produced element: everything after
the producing input maps to `none`. -/
theorem filterMap_getLast?_split {α β : Type} (g : α → Option β) :
    ∀ (l : List α) (b : β), (l.filterMap g).getLast? = some b →
      ∃ l1 x l2, l = l1 ++ x :: l2 ∧ g x = some b ∧ l2.filterMap g = [] := by
  intro l
  induction l with
  | nil => intro b hb; simp at hb
  | cons a t ih =>
    intro b hb
    cases hga : g a with
    | none =>
      rw [List.filterMap_cons, hga] at hb
      obtain ⟨l1, x, l2, hdec, hx, hnil⟩ := ih b hb
      exact ⟨a :: l1, x, l2, by rw [hdec]; rfl, hx, hnil⟩
    | some c =>
      rw [List.filterMap_cons, hga] at hb
      cases htl : t.filterMap g with
      | nil =>
        rw [htl] at hb
        simp at hb
        exact ⟨[], a, t, rfl, by rw [hga, hb], htl⟩
      | cons c2 t2 =>
        rw [htl, List.getLast?_cons_cons] at hb
        rw [← htl] at hb
        obtain ⟨l1, x, l2, hdec, hx, hnil⟩ := ih b hb
        exact ⟨a :: l1, x, l2, by rw [hdec]; rfl, hx, hnil⟩

/-! ### Sorting facts -/

theorem sorted_blocks
    (prs : List (List AirMeasurement × AirMeasurement))
    (tail : List AirMeasurement)
    (hs : (((prs.map blockOf).flatten) ++ tail).Pairwise tsLT) :
    (∀ pr ∈ prs, (blockOf pr).Pairwise tsLT) ∧
      prs.Pairwise (fun p q => ∀ x ∈ blockOf p, ∀ y ∈ blockOf q, tsLT x y) ∧
      (∀ pr ∈ prs, ∀ x ∈ blockOf pr, ∀ y ∈ tail, tsLT x y) ∧
      tail.Pairwise tsLT := by
  obtain ⟨hj, ht, hcross⟩ := List.pairwise_append.mp hs
  obtain ⟨hin, hbet⟩ := List.pairwise_flatten.mp hj
  refine ⟨?_, ?_, ?_, ht⟩
  · intro pr hpr
    exact hin (blockOf pr) (List.mem_map_of_mem blockOf hpr)
  · exact (List.pairwise_map.mp hbet).imp (fun h => h)
  · intro pr hpr x hx y hy
    exact hcross x
      (List.mem_flatten.mpr ⟨blockOf pr, List.mem_map_of_mem blockOf hpr, hx⟩)
      y hy

theorem sortDesc_head_max (l : List CalimaEvent) (e : CalimaEvent)
    (h : (List.insertionSort evGE l).head? = some e) :
    e ∈ l ∧ ∀ x ∈ l, x.start_time ≤ e.start_time := by
  have hsorted := List.sorted_insertionSort evGE l
  cases hsort : List.insertionSort evGE l with
  | nil => rw [hsort] at h; cases h
  | cons a t =>
    rw [hsort] at h
    have ha : a = e := by simpa using h
    subst ha
    rw [hsort] at hsorted
    constructor
    · exact (List.mem_insertionSort evGE).mp (by rw [hsort]; simp)
    · intro x hx
      have hx2 : x ∈ a :: t := by
        rw [← hsort]
        exact (List.mem_insertionSort evGE).mpr hx
      rcases List.mem_cons.mp hx2 with rfl | hx2
      · exact le_refl _
      · exact List.rel_of_sorted_cons hsorted x hx2

theorem sortDesc_head_of_unique_max (l : List CalimaEvent) (e : CalimaEvent)
    (he : e ∈ l) (hmax : ∀ x ∈ l, x ≠ e → x.start_time < e.start_time) :
    (List.insertionSort evGE l).head? = some e := by
  cases hsort : List.insertionSort evGE l with
  | nil =>
    have : e ∈ List.insertionSort evGE l :=
      (List.mem_insertionSort evGE).mpr he
    rw [hsort] at this
    cases this
  | cons a t =>
    have ha : a ∈ l := (List.mem_insertionSort evGE).mp (by rw [hsort]; simp)
    by_cases hae : a = e
    · rw [hae]; rfl
    · exfalso
      have h1 : a.start_time < e.start_time := hmax a ha hae
      have he2 : e ∈ a :: t := by
        rw [← hsort]; exact (List.mem_insertionSort evGE).mpr he
      rcases List.mem_cons.mp he2 with rfl | he2
      · exact hae rfl
      · have hsorted := List.sorted_insertionSort evGE l
        rw [hsort] at hsorted
        have : e.start_time ≤ a.start_time :=
          List.rel_of_sorted_cons hsorted e he2
        exact absurd h1 (not_lt.mpr this)

/-! ### Unfolding the repository reads under the storage invariants -/

/-- The stored events of one location (unsorted). -/
def locEvents (db : AirDB) (location : String) : List CalimaEvent :=
  db.events.filter (fun e => e.location == location)

theorem get_measurements_eq (db : AirDB) (location : String)
    (hloc : location ∈ db.locations)
    (hS : (locMeasurements db location).Pairwise tsLT) :
    get_measurements db location = locMeasurements db location := by
  rw [get_measurements, if_pos hloc]
  exact List.Sorted.insertionSort_eq (hS.imp (fun h => le_of_lt h))

theorem get_range_top_eq (db : AirDB) (location : String) (r : ℕ)
    (hloc : location ∈ db.locations)
    (hS : (locMeasurements db location).Pairwise tsLT) :
    get_range db location r ⊤ =
      (locMeasurements db location).filter
        (fun m => decide (r ≤ m.data.timestamp)) := by
  rw [get_range, if_pos hloc]
  have hfil : db.measurements.filter (fun m =>
      m.location == location &&
      decide (r ≤ m.data.timestamp) &&
      decide ((m.data.timestamp : WithTop ℕ) ≤ ⊤)) =
      (locMeasurements db location).filter
        (fun m => decide (r ≤ m.data.timestamp)) := by
    rw [locMeasurements, List.filter_filter]
    apply List.filter_congr
    intro x _
    have htop : decide ((x.data.timestamp : WithTop ℕ) ≤ ⊤) = true :=
      decide_eq_true le_top
    rw [htop]
    rw [Bool.and_true]
    exact Bool.and_comm _ _
  rw [hfil]
  exact List.Sorted.insertionSort_eq
    ((hS.filter _).imp (fun h => le_of_lt h))

theorem get_calima_events_eq (db : AirDB) (location : String)
    (hloc : location ∈ db.locations) :
    get_calima_events db location =
      List.insertionSort evGE (locEvents db location) := by
  rw [get_calima_events, if_pos hloc]
  rfl

theorem scannedSeries_loc_of_ne (db : AirDB) (location : String)
    (h : scannedSeries db location ≠ []) : location ∈ db.locations := by
  by_contra hloc
  apply h
  rw [scannedSeries]
  cases hh : ((get_calima_events db location).head?).map
      (fun e => e.end_time) with
  | none => simp [get_measurements, hloc]
  | some r => simp [get_range, hloc]

theorem detect_events_of_empty (db : AirDB) (location : String)
    (h : scannedSeries db location = []) :
    detect_events db location = ([], db) := by
  rw [detect_events, h]
  rfl

theorem detect_events_of_ne (db : AirDB) (location : String)
    (h : scannedSeries db location ≠ []) :
    (detect_events db location).1 =
      commitsOf (repoCommit db location)
        (splitRuns (scannedSeries db location)).1 ∧
    (detect_events db location).2 =
      { db with events := db.events ++ (detect_events db location).1 } := by
  have hne : (scannedSeries db location).isEmpty = false := by
    simpa [List.isEmpty_iff] using h
  constructor
  · rw [detect_events]
    simp only [hne, Bool.false_eq_true, if_false]
    rw [scanGo_commits]
  · rw [detect_events]
    simp only [hne, Bool.false_eq_true, if_false]

/-! ### Claim C2: the hour classifier -/

theorem option_any_iff (o : Option ℚ) (p : ℚ → Bool) :
    o.any p = true ↔ ∃ x, o = some x ∧ p x = true := by
  cases o <;> simp [Option.any]

theorem is_calima_eq_or (pm10 pm25 dust aod : Option ℚ) :
    is_calima_from_values pm10 pm25 dust aod =
      (dust.any (fun d => d > 150) ||
       (pm10.any (fun v => v > 50) && aod.any (fun a => a > 0.5)) ||
       (pm25.any (fun v => v > 35) && pm10.any (fun v => v > 60))) := by
  rw [is_calima_from_values]
  split_ifs with h1 h2 h3 <;> simp_all

/-- C2: the hour classifier is total (a Lean function into `Bool`), and
returns `true` iff `dust > 150`, or `pm10 > 50 ∧ aod > 0.5`, or
`pm25 > 35 ∧ pm10 > 60`, with strict comparisons and `none` failing every
comparison that touches it; in particular `dust = 150` and
`pm10 = 50, aod = 0.5` classify as `false`. -/
theorem c2_hour_classifier :
    (∀ pm10 pm25 dust aod : Option ℚ,
      is_calima_from_values pm10 pm25 dust aod = true ↔
        ((∃ d, dust = some d ∧ d > 150) ∨
         (∃ p a, pm10 = some p ∧ aod = some a ∧ p > 50 ∧ a > 0.5) ∨
         (∃ q p, pm25 = some q ∧ pm10 = some p ∧ q > 35 ∧ p > 60))) ∧
    is_calima_from_values none none (some 150) none = false ∧
    is_calima_from_values (some 50) none none (some 0.5) = false := by
  refine ⟨?_, ?_, ?_⟩
  · intro pm10 pm25 dust aod
    rw [is_calima_eq_or]
    simp only [Bool.or_eq_true, Bool.and_eq_true, option_any_iff,
      decide_eq_true_eq]
    constructor
    · rintro ((⟨d, hd, h150⟩ | ⟨⟨p, hp, h50⟩, ⟨a, ha, h05⟩⟩) |
        ⟨⟨q, hq, h35⟩, ⟨p, hp, h60⟩⟩)
      · exact Or.inl ⟨d, hd, h150⟩
      · exact Or.inr (Or.inl ⟨p, a, hp, ha, h50, h05⟩)
      · exact Or.inr (Or.inr ⟨q, p, hq, hp, h35, h60⟩)
    · rintro (⟨d, hd, h150⟩ | ⟨p, a, hp, ha, h50, h05⟩ |
        ⟨q, p, hq, hp, h35, h60⟩)
      · exact Or.inl (Or.inl ⟨d, hd, h150⟩)
      · exact Or.inl (Or.inr ⟨⟨p, hp, h50⟩, ⟨a, ha, h05⟩⟩)
      · exact Or.inr ⟨⟨q, hq, h35⟩, ⟨p, hp, h60⟩⟩
  · norm_num [is_calima_from_values]
  · norm_num [is_calima_from_values]

/-! ### Claim C10: the frozen `created_at` default -/

/-- C10: the `created_at` default of `AirLocation` is evaluated once at class
definition time, so any two locations created without an explicit
`created_at` — at arbitrary creation times `now1`, `now2` — receive the same
frozen timestamp. -/
theorem c10_created_at_frozen :
    ∀ (importTime : ℕ) (n1 n2 : String) (la1 lo1 la2 lo2 : ℚ)
      (now1 now2 : ℕ),
      (mkAirLocation_default importTime n1 la1 lo1 now1).created_at =
        (mkAirLocation_default importTime n2 la2 lo2 now2).created_at := by
  intro importTime n1 n2 la1 lo1 la2 lo2 now1 now2
  rfl

/-! ### Claim C8: empty series and unknown location on read -/

/-- C8: an unknown location reads as empty series and empty event list, and
whenever the fetched measurement series is empty `detect_events` returns `[]`
without error and performs no episode writes (the database is unchanged). -/
theorem c8_empty_series (db : AirDB) (location : String) :
    (location ∉ db.locations →
      get_measurements db location = [] ∧
      get_calima_events db location = [] ∧
      detect_events db location = ([], db)) ∧
    (scannedSeries db location = [] →
      detect_events db location = ([], db)) := by
  constructor
  · intro hloc
    have hm : get_measurements db location = [] := by
      rw [get_measurements, if_neg hloc]
    have he : get_calima_events db location = [] := by
      rw [get_calima_events, if_neg hloc]
    refine ⟨hm, he, ?_⟩
    apply detect_events_of_empty
    rw [scannedSeries, he]
    simpa using hm
  · exact detect_events_of_empty db location

/-- A concrete database for the C8 witness: no locations at all. -/
def dbEmpty : AirDB := { locations := [], measurements := [], events := [] }

/-- Witness for C8 at a concrete unknown location. -/
theorem c8_empty_series_witness :
    ("nowhere" ∉ dbEmpty.locations ∧
      detect_events dbEmpty "nowhere" = ([], dbEmpty)) ∧
    (scannedSeries dbEmpty "nowhere" = [] ∧
      detect_events dbEmpty "nowhere" = ([], dbEmpty)) := by
  have h := c8_empty_series dbEmpty "nowhere"
  refine ⟨⟨by decide, (h.1 (by decide)).2.2⟩, ⟨by decide, h.2 (by decide)⟩⟩

/-! ### The scanned series under the storage invariants -/

instance : DecidableRel tsLT :=
  fun a b => Nat.decLt a.data.timestamp b.data.timestamp

theorem scannedSeries_sorted (db : AirDB) (location : String)
    (hS : (locMeasurements db location).Pairwise tsLT) :
    (scannedSeries db location).Pairwise tsLT := by
  rw [scannedSeries]
  by_cases hloc : location ∈ db.locations
  · cases hh : ((get_calima_events db location).head?).map
        (fun e => e.end_time) with
    | none =>
      simp only [hh]
      rw [get_measurements_eq db location hloc hS]
      exact hS
    | some r =>
      simp only [hh]
      rw [get_range_top_eq db location r hloc hS]
      exact hS.filter _
  · cases hh : ((get_calima_events db location).head?).map
        (fun e => e.end_time) with
    | none =>
      simp only [hh]
      rw [get_measurements, if_neg hloc]
      exact List.Pairwise.nil
    | some r =>
      simp only [hh]
      rw [get_range, if_neg hloc]
      exact List.Pairwise.nil

theorem splitRuns_flat (ms : List AirMeasurement) :
    ms = (((splitRuns ms).1.map blockOf).flatten) ++ (splitRuns ms).2 := by
  have h := splitRunsAux_flat ms []
  simpa [splitRuns] using h

theorem splitRuns_sorted_pack (ms : List AirMeasurement)
    (hs : ms.Pairwise tsLT) :
    (∀ pr ∈ (splitRuns ms).1, (blockOf pr).Pairwise tsLT) ∧
    (splitRuns ms).1.Pairwise
      (fun p q => ∀ x ∈ blockOf p, ∀ y ∈ blockOf q, tsLT x y) ∧
    (∀ pr ∈ (splitRuns ms).1, ∀ x ∈ blockOf pr,
      ∀ y ∈ (splitRuns ms).2, tsLT x y) ∧
    (splitRuns ms).2.Pairwise tsLT := by
  apply sorted_blocks
  rw [← splitRuns_flat ms]
  exact hs

theorem mem_run_mem_series (ms : List AirMeasurement)
    (pr : List AirMeasurement × AirMeasurement)
    (hpr : pr ∈ (splitRuns ms).1) (x : AirMeasurement)
    (hx : x ∈ blockOf pr) : x ∈ ms := by
  rw [splitRuns_flat ms]
  apply List.mem_append_left
  exact List.mem_flatten.mpr ⟨blockOf pr, List.mem_map_of_mem blockOf hpr, hx⟩

theorem runStart_mem_block (pr : List AirMeasurement × AirMeasurement)
    (h : pr.1 ≠ []) :
    ∃ x ∈ blockOf pr, runStart pr.1 = x.data.timestamp := by
  obtain ⟨x, hx, he⟩ := runStart_mem pr.1 h
  exact ⟨x, List.mem_append_left _ hx, he⟩

/-! ### Claim C6: write-collaborator failures -/

/-- A measurement used by the C6/C1 concrete scenarios. -/
def mm6 (ts : ℕ) (dust : Option ℚ) : AirMeasurement :=
  { location := "x",
    data := { timestamp := ts, pm10 := none, pm25 := none, dust := dust,
              aod := none, is_calima := false } }

/-- Two closed qualifying runs (hours 0-2 and 4-6), each closed by a clean
hour. -/
def ms6 : List AirMeasurement :=
  [ mm6 0 (some 200), mm6 1 (some 200), mm6 2 (some 200), mm6 3 (some 10),
    mm6 4 (some 200), mm6 5 (some 200), mm6 6 (some 200), mm6 7 (some 10) ]

/-- A write collaborator that rejects exactly the episode starting at hour 0
(a failure sentinel for the first qualifying run). -/
def commit6 : CommitFn :=
  fun s e p d a =>
    if s = 0 then none
    else some { location := "x", start_time := s, end_time := e,
                peak_pm10 := p, peak_dust := d, peak_aod := a }

/-- C6: the scan returns exactly the episodes the write collaborator accepted
(for every collaborator; rejected qualifying runs are silently omitted and do
not abort the scan of later runs), in scan order; episodes returned by
`detect_events` have strictly ascending start times; and concretely, with a
collaborator failing on the first qualifying run of `ms6`, the second run is
still committed and is the only episode returned. -/
theorem c6_commit_failures :
    (∀ (commit : CommitFn) (ms : List AirMeasurement),
      (scanGo commit ms initScanState).1 =
        commitsOf commit (splitRuns ms).1) ∧
    (∀ (db : AirDB) (location : String),
      (locMeasurements db location).Pairwise tsLT →
      ((detect_events db location).1).Pairwise
        (fun e1 e2 => e1.start_time < e2.start_time)) ∧
    (scanGo commit6 ms6 initScanState).1.map
      (fun e => (e.start_time, e.end_time)) = [(4, 6)] := by
  refine ⟨scanGo_commits, ?_, by decide⟩
  intro db location hS
  by_cases hms : scannedSeries db location = []
  · rw [detect_events_of_empty db location hms]
    exact List.Pairwise.nil
  · have hloc := scannedSeries_loc_of_ne db location hms
    rw [(detect_events_of_ne db location hms).1]
    rw [commitsOf_repo db location hloc]
    have hsorted := scannedSeries_sorted db location hS
    have hpack := splitRuns_sorted_pack (scannedSeries db location) hsorted
    apply List.pairwise_filterMap.mpr
    refine hpack.2.1.imp ?_
    intro p q hpq e1 he1 e2 he2
    by_cases hp : 3 ≤ p.1.length
    · by_cases hq : 3 ≤ q.1.length
      · rw [if_pos hp] at he1
        rw [if_pos hq] at he2
        have he1e : e1 = eventOf location p.1 := by
          have := Option.mem_def.mp he1
          exact (Option.some.inj this).symm
        have he2e : e2 = eventOf location q.1 := by
          have := Option.mem_def.mp he2
          exact (Option.some.inj this).symm
        obtain ⟨x, hxb, hxe⟩ := runStart_mem_block p
          (by intro hnil; rw [hnil] at hp; simp at hp)
        obtain ⟨y, hyb, hye⟩ := runStart_mem_block q
          (by intro hnil; rw [hnil] at hq; simp at hq)
        rw [he1e, he2e]
        show runStart p.1 < runStart q.1
        rw [hxe, hye]
        exact hpq x hxb y hyb
      · rw [if_neg hq] at he2; cases he2
    · rw [if_neg hp] at he1; cases he1

/-- A concrete database for the C6 witness. -/
def db6 : AirDB := { locations := ["x"], measurements := ms6, events := [] }

/-- Witness for C6 at a concrete database. -/
theorem c6_commit_failures_witness :
    (locMeasurements db6 "x").Pairwise tsLT ∧
    ((detect_events db6 "x").1).Pairwise
      (fun e1 e2 => e1.start_time < e2.start_time) :=
  ⟨by decide, c6_commit_failures.2.1 db6 "x" (by decide)⟩

/-! ### Claim C1: committed iff at least 3 hourly samples -/

theorem closedPrefix_no_tail (A : List AirMeasurement)
    (hA : A = [] ∨ ∃ A' a, A = A' ++ [a] ∧ is_hour_calima a = false) :
    (splitRunsAux [] A).2 = [] := by
  rcases hA with rfl | ⟨A', a, rfl, ha⟩
  · rfl
  · exact splitRunsAux_concat_false A' [] a ha

theorem splitRuns_decomp (A run : List AirMeasurement) (c : AirMeasurement)
    (rest : List AirMeasurement)
    (hA : (splitRunsAux [] A).2 = [])
    (htrue : ∀ x ∈ run, is_hour_calima x = true)
    (hc : is_hour_calima c = false) :
    splitRuns (A ++ (run ++ c :: rest)) =
      ((splitRunsAux [] A).1 ++ (run, c) :: (splitRuns rest).1,
        (splitRuns rest).2) := by
  have h1 : splitRuns (A ++ (run ++ c :: rest)) =
      ((splitRunsAux [] A).1 ++ (splitRuns (run ++ c :: rest)).1,
        (splitRuns (run ++ c :: rest)).2) :=
    splitRunsAux_closed_append A [] (run ++ c :: rest) hA
  have h2 : splitRuns (run ++ c :: rest) =
      ((run, c) :: (splitRuns rest).1, (splitRuns rest).2) := by
    show splitRunsAux [] (run ++ c :: rest) = _
    rw [splitRunsAux_truePrefix run [] (c :: rest) htrue]
    simp [splitRunsAux, hc, splitRuns]
  rw [h1, h2]

/-- C1: a closed run — a maximal block of consecutive calima hours followed
by a non-calima hour within the scanned series — is committed if and only if
it spans at least 3 hourly samples (the write succeeding because the
location exists); the committed episode ends exactly at the last calima hour
of the run (`runEnd run`), the hour just before the closing hour. -/
theorem c1_min_duration (db : AirDB) (location : String)
    (A run : List AirMeasurement) (c : AirMeasurement)
    (rest : List AirMeasurement)
    (hS : (locMeasurements db location).Pairwise tsLT)
    (hloc : location ∈ db.locations)
    (hdec : scannedSeries db location = A ++ (run ++ c :: rest))
    (hrun : run ≠ []) (htrue : ∀ x ∈ run, is_hour_calima x = true)
    (hc : is_hour_calima c = false)
    (hA : A = [] ∨ ∃ A' a, A = A' ++ [a] ∧ is_hour_calima a = false) :
    (∃ e ∈ (detect_events db location).1,
        e.start_time = runStart run ∧ e.end_time = runEnd run) ↔
      3 ≤ run.length := by
  have hms : scannedSeries db location ≠ [] := by
    rw [hdec]; simp
  have hsplit : splitRuns (scannedSeries db location) =
      ((splitRunsAux [] A).1 ++ (run, c) :: (splitRuns rest).1,
        (splitRuns rest).2) := by
    rw [hdec]
    exact splitRuns_decomp A run c rest (closedPrefix_no_tail A hA) htrue hc
  have hdet := (detect_events_of_ne db location hms).1
  constructor
  · rintro ⟨e, he, hst, hend⟩
    rw [hdet] at he
    obtain ⟨pr, hpr, hlen, hee⟩ :=
      mem_commitsOf_repo db location hloc _ e he
    rw [hsplit] at hpr
    have hstart_eq : runStart pr.1 = runStart run := by
      rw [hee] at hst
      exact hst
    rcases List.mem_append.mp hpr with hprA | hprC
    · -- a block strictly before the run: its start is strictly smaller
      exfalso
      have hpack := splitRuns_sorted_pack (scannedSeries db location)
        (scannedSeries_sorted db location hS)
      have hbet := hpack.2.1
      rw [hsplit] at hbet
      have hrel : ∀ x ∈ blockOf pr, ∀ y ∈ blockOf (run, c), tsLT x y :=
        (List.pairwise_append.mp hbet).2.2 pr hprA (run, c) (by simp)
      obtain ⟨x, hxb, hxe⟩ := runStart_mem_block pr
        (by intro hnil; rw [hnil] at hlen; simp at hlen)
      obtain ⟨y, hyb, hye⟩ := runStart_mem_block (run, c) hrun
      have : runStart pr.1 < runStart run := by
        rw [hxe, hye]; exact hrel x hxb y hyb
      omega
    · rcases List.mem_cons.mp hprC with rfl | hprR
      · exact hlen
      · -- a block strictly after the run: its start is strictly larger
        exfalso
        have hpack := splitRuns_sorted_pack (scannedSeries db location)
          (scannedSeries_sorted db location hS)
        have hbet := hpack.2.1
        rw [hsplit] at hbet
        have hcons := (List.pairwise_append.mp hbet).2.1
        have hrel : ∀ x ∈ blockOf (run, c), ∀ y ∈ blockOf pr, tsLT x y :=
          (List.pairwise_cons.mp hcons).1 pr hprR
        obtain ⟨x, hxb, hxe⟩ := runStart_mem_block (run, c) hrun
        obtain ⟨y, hyb, hye⟩ := runStart_mem_block pr
          (by intro hnil; rw [hnil] at hlen; simp at hlen)
        have : runStart run < runStart pr.1 := by
          rw [hxe, hye]; exact hrel x hxb y hyb
        omega
  · intro hlen
    refine ⟨eventOf location run, ?_, rfl, rfl⟩
    rw [hdet, hsplit, commitsOf_repo db location hloc]
    rw [List.filterMap_append]
    apply List.mem_append_right
    rw [List.filterMap_cons]
    simp only [hlen, if_pos]
    exact List.mem_cons_self _ _

/-- The closed 3-hour run of `ms6` (hours 4-6) and the prefix before it. -/
def run6 : List AirMeasurement :=
  [mm6 4 (some 200), mm6 5 (some 200), mm6 6 (some 200)]

def prefix6 : List AirMeasurement :=
  [mm6 0 (some 200), mm6 1 (some 200), mm6 2 (some 200), mm6 3 (some 10)]

/-- A database whose series is a single closed run of exactly 2 calima
hours. -/
def dbTwo : AirDB :=
  { locations := ["x"],
    measurements := [mm6 0 (some 200), mm6 1 (some 200), mm6 2 (some 10)],
    events := [] }

def run2 : List AirMeasurement := [mm6 0 (some 200), mm6 1 (some 200)]

/-- Witness for C1: a closed run of exactly 3 hours is committed, a closed
run of exactly 2 hours is not. -/
theorem c1_min_duration_witness :
    (∃ e ∈ (detect_events db6 "x").1,
      e.start_time = runStart run6 ∧ e.end_time = runEnd run6) ∧
    ¬ (∃ e ∈ (detect_events dbTwo "x").1,
      e.start_time = runStart run2 ∧ e.end_time = runEnd run2) := by
  constructor
  · exact (c1_min_duration db6 "x" prefix6 run6 (mm6 7 (some 10)) []
      (by decide) (by decide) (by decide) (by decide) (by decide) (by decide)
      (Or.inr ⟨[mm6 0 (some 200), mm6 1 (some 200), mm6 2 (some 200)],
        mm6 3 (some 10), by decide, by decide⟩)).mpr (by decide)
  · intro h
    have h3 := (c1_min_duration dbTwo "x" [] run2 (mm6 2 (some 10)) []
      (by decide) (by decide) (by decide) (by decide) (by decide) (by decide)
      (Or.inl rfl)).mp h
    exact absurd h3 (by decide)

/-! ### Claim C3: open runs are never committed -/

/-- C3: when the scanned series ends in a block of calima hours (an open
run), that trailing block contributes no committed episode: every committed
episode ends strictly before the trailing block starts, and is bounded by a
non-calima hour inside the series. -/
theorem c3_open_run_excluded (db : AirDB) (location : String)
    (A tail : List AirMeasurement)
    (hS : (locMeasurements db location).Pairwise tsLT)
    (hdec : scannedSeries db location = A ++ tail)
    (htail : tail ≠ []) (htrue : ∀ x ∈ tail, is_hour_calima x = true) :
    ∀ e ∈ (detect_events db location).1,
      e.end_time < runStart tail ∧
      ∃ c ∈ scannedSeries db location,
        is_hour_calima c = false ∧ e.end_time < c.data.timestamp := by
  intro e he
  have hms : scannedSeries db location ≠ [] := by
    rw [hdec]
    intro hcon
    exact htail (List.append_eq_nil.mp hcon).2
  have hloc := scannedSeries_loc_of_ne db location hms
  rw [(detect_events_of_ne db location hms).1] at he
  obtain ⟨pr, hpr, hlen, hee⟩ := mem_commitsOf_repo db location hloc _ e he
  have hrne : pr.1 ≠ [] := by
    intro hnil; rw [hnil] at hlen; simp at hlen
  have hsorted := scannedSeries_sorted db location hS
  have hpack := splitRuns_sorted_pack (scannedSeries db location) hsorted
  have hblock := hpack.1 pr hpr
  -- the closing hour bounds the run end from above
  obtain ⟨x1, hx1, hx1e⟩ := runEnd_mem pr.1 hrne
  have hx1c : tsLT x1 pr.2 := by
    have := (List.pairwise_append.mp hblock).2.2 x1 hx1 pr.2 (by simp)
    exact this
  have hendlt : runEnd pr.1 < pr.2.data.timestamp := by
    rw [hx1e]; exact hx1c
  have hshape := splitRunsAux_shape (scannedSeries db location) []
    (by intro x hx; cases hx)
  have hcfalse : is_hour_calima pr.2 = false := (hshape.1 pr hpr).2
  have hcm : pr.2 ∈ scannedSeries db location :=
    mem_run_mem_series _ pr hpr pr.2 (by simp [blockOf])
  have hee2 : e.end_time = runEnd pr.1 := by rw [hee]; rfl
  constructor
  · -- the closing hour lies in A, before the trailing run
    have hcA : pr.2 ∈ A := by
      rcases (by rw [← hdec]; exact hcm : pr.2 ∈ A ++ tail) |> List.mem_append.mp with h | h
      · exact h
      · rw [htrue pr.2 h] at hcfalse; cases hcfalse
    obtain ⟨y0, hy0, hy0e⟩ := runStart_mem tail htail
    have hAlt : ∀ a ∈ A, ∀ b ∈ tail, tsLT a b := by
      have := hsorted
      rw [hdec] at this
      exact (List.pairwise_append.mp this).2.2
    have : pr.2.data.timestamp < runStart tail := by
      rw [hy0e]; exact hAlt pr.2 hcA y0 hy0
    rw [hee2]
    omega
  · exact ⟨pr.2, hcm, hcfalse, by rw [hee2]; exact hendlt⟩

/-! ### Claims C5 and C9: peaks and committed-episode invariants -/

/-- The peak formula as the claim states it: the running maximum over the
run's hours of `max(value, 0)`, absent values contributing `0`, starting
from `0`. -/
def specPeak (f : AirQualityData → Option ℚ) (run : List AirMeasurement) : ℚ :=
  run.foldl (fun acc m => max acc (max (((f m.data)).getD 0) 0)) 0

theorem pyOrZero_step (acc : ℚ) (hacc : 0 ≤ acc) (v : Option ℚ) :
    max acc (pyOrZero v) = max acc (max (v.getD 0) 0) := by
  cases v with
  | none => simp [pyOrZero]
  | some x =>
    by_cases hx : x = 0
    · simp [pyOrZero, hx]
    · rw [show pyOrZero (some x) = x by simp [pyOrZero, hx]]
      by_cases hx0 : 0 ≤ x
      · rw [show max ((some x).getD 0) 0 = x by simp [max_eq_left hx0]]
      · have hlt : x < 0 := lt_of_not_ge hx0
        rw [show max ((some x).getD 0) 0 = (0:ℚ) by
          simp [max_eq_right (le_of_lt hlt)]]
        rw [max_eq_left hacc, max_eq_left (le_trans (le_of_lt hlt) hacc)]

theorem peakFold_eq_spec (f : AirQualityData → Option ℚ) :
    ∀ (run : List AirMeasurement) (acc : ℚ), 0 ≤ acc →
      peakFold f acc run =
        run.foldl (fun a m => max a (max (((f m.data)).getD 0) 0)) acc := by
  intro run
  induction run with
  | nil => intro acc _; rfl
  | cons m t ih =>
    intro acc hacc
    show peakFold f (max acc (pyOrZero (f m.data))) t = _
    rw [pyOrZero_step acc hacc (f m.data)]
    exact ih _ (le_trans hacc (le_max_left _ _))

theorem runPeak_eq_specPeak (f : AirQualityData → Option ℚ)
    (run : List AirMeasurement) : runPeak f run = specPeak f run :=
  peakFold_eq_spec f run 0 (le_refl 0)

theorem runPeak_of_all_none (f : AirQualityData → Option ℚ) :
    ∀ (run : List AirMeasurement) (acc : ℚ), 0 ≤ acc →
      (∀ x ∈ run, f x.data = none) → peakFold f acc run = acc := by
  intro run
  induction run with
  | nil => intro acc _ _; rfl
  | cons m t ih =>
    intro acc hacc hnone
    show peakFold f (max acc (pyOrZero (f m.data))) t = acc
    rw [hnone m (by simp)]
    rw [show pyOrZero none = (0:ℚ) from rfl, max_eq_left hacc]
    exact ih acc hacc (fun x hx => hnone x (List.mem_cons_of_mem m hx))

/-- C5: every committed episode's peaks (peak_pm10, peak_dust, peak_aod) are
the running maxima over the run's hours of `max(value, 0)`, absent values
contributing `0` and starting from `0`; in particular a run whose pm10
values are all null commits with `peak_pm10 = 0`, while a non-null dust
value in the same run still yields the correct `peak_dust`. -/
theorem c5_peaks (db : AirDB) (location : String) :
    ∀ e ∈ (detect_events db location).1,
      ∃ run, run ≠ [] ∧ (∀ x ∈ run, is_hour_calima x = true) ∧
        (∀ x ∈ run, x ∈ scannedSeries db location) ∧
        e.start_time = runStart run ∧ e.end_time = runEnd run ∧
        e.peak_pm10 = specPeak (fun d => d.pm10) run ∧
        e.peak_dust = specPeak (fun d => d.dust) run ∧
        e.peak_aod = specPeak (fun d => d.aod) run ∧
        ((∀ x ∈ run, x.data.pm10 = none) → e.peak_pm10 = 0) ∧
        ((∀ x ∈ run, x.data.dust = none) → e.peak_dust = 0) := by
  intro e he
  by_cases hms : scannedSeries db location = []
  · rw [detect_events_of_empty db location hms] at he
    cases he
  · have hloc := scannedSeries_loc_of_ne db location hms
    rw [(detect_events_of_ne db location hms).1] at he
    obtain ⟨pr, hpr, hlen, hee⟩ :=
      mem_commitsOf_repo db location hloc _ e he
    have hrne : pr.1 ≠ [] := by
      intro h; rw [h] at hlen; simp at hlen
    have hshape := splitRunsAux_shape (scannedSeries db location) []
      (by intro x hx; cases hx)
    refine ⟨pr.1, hrne, (hshape.1 pr hpr).1, ?_, ?_, ?_, ?_, ?_, ?_, ?_, ?_⟩
    · intro x hx
      exact mem_run_mem_series _ pr hpr x (List.mem_append_left _ hx)
    · rw [hee]; rfl
    · rw [hee]; rfl
    · rw [hee]; exact runPeak_eq_specPeak _ _
    · rw [hee]; exact runPeak_eq_specPeak _ _
    · rw [hee]; exact runPeak_eq_specPeak _ _
    · intro hnone
      rw [hee]
      exact runPeak_of_all_none _ pr.1 0 (le_refl 0) hnone
    · intro hnone
      rw [hee]
      exact runPeak_of_all_none _ pr.1 0 (le_refl 0) hnone

/-- C9: for every committed episode, assuming strictly ascending timestamps
in the stored series, the episode's start and end are timestamps of
measurements present in the scanned series, start < end, every measurement
between start and end inclusive is classified calima, and the measurement
immediately after the end (the closing hour) is classified non-calima. -/
theorem c9_invariants (db : AirDB) (location : String)
    (hS : (locMeasurements db location).Pairwise tsLT) :
    ∀ e ∈ (detect_events db location).1,
      (∃ m ∈ scannedSeries db location,
        m.data.timestamp = e.start_time) ∧
      (∃ m ∈ scannedSeries db location, m.data.timestamp = e.end_time) ∧
      e.start_time < e.end_time ∧
      (∀ m ∈ scannedSeries db location,
        e.start_time ≤ m.data.timestamp → m.data.timestamp ≤ e.end_time →
        is_hour_calima m = true) ∧
      (∃ c ∈ scannedSeries db location, e.end_time < c.data.timestamp ∧
        is_hour_calima c = false ∧
        ∀ m ∈ scannedSeries db location, e.end_time < m.data.timestamp →
          c.data.timestamp ≤ m.data.timestamp) := by
  intro e he
  by_cases hms : scannedSeries db location = []
  · rw [detect_events_of_empty db location hms] at he
    cases he
  · have hloc := scannedSeries_loc_of_ne db location hms
    rw [(detect_events_of_ne db location hms).1] at he
    obtain ⟨pr, hpr, hlen, hee⟩ :=
      mem_commitsOf_repo db location hloc _ e he
    have hrne : pr.1 ≠ [] := by
      intro h; rw [h] at hlen; simp at hlen
    have hshape := splitRunsAux_shape (scannedSeries db location) []
      (by intro x hx; cases hx)
    have htrue := (hshape.1 pr hpr).1
    have hcfalse := (hshape.1 pr hpr).2
    -- positional decomposition of the series around the block of pr
    obtain ⟨P1, P2, hP⟩ := List.append_of_mem hpr
    have hms_eq : scannedSeries db location =
        ((P1.map blockOf).flatten) ++
          (pr.1 ++ (pr.2 ::
            (((P2.map blockOf).flatten) ++
              (splitRuns (scannedSeries db location)).2))) := by
      have hflat := splitRuns_flat (scannedSeries db location)
      rw [hP] at hflat
      conv_lhs => rw [hflat]
      simp [blockOf, List.append_assoc]
    set J := (P1.map blockOf).flatten with hJ
    set R := ((P2.map blockOf).flatten) ++
      (splitRuns (scannedSeries db location)).2 with hR
    have hsorted := scannedSeries_sorted db location hS
    rw [hms_eq] at hsorted
    obtain ⟨hJp, hrest, hJlt⟩ := List.pairwise_append.mp hsorted
    obtain ⟨hrunp, hcR, hcrosslt⟩ := List.pairwise_append.mp hrest
    have hstart : e.start_time = runStart pr.1 := by rw [hee]; rfl
    have hend : e.end_time = runEnd pr.1 := by rw [hee]; rfl
    obtain ⟨x0, hx0, hx0e⟩ := runStart_mem pr.1 hrne
    obtain ⟨x1, hx1, hx1e⟩ := runEnd_mem pr.1 hrne
    have hse : runStart pr.1 ≤ runEnd pr.1 := by
      rw [hx1e]
      exact sorted_runStart_le pr.1 hrunp x1 hx1
    refine ⟨?_, ?_, ?_, ?_, ?_⟩
    · refine ⟨x0, ?_, by rw [hstart, hx0e]⟩
      exact mem_run_mem_series _ pr hpr x0 (List.mem_append_left _ hx0)
    · refine ⟨x1, ?_, by rw [hend, hx1e]⟩
      exact mem_run_mem_series _ pr hpr x1 (List.mem_append_left _ hx1)
    · rw [hstart, hend]
      exact sorted_runStart_lt_runEnd pr.1 hrunp (by omega)
    · intro m hm hm1 hm2
      rw [hms_eq] at hm
      rcases List.mem_append.mp hm with hmJ | hmRun
      · exfalso
        have : tsLT m x0 :=
          hJlt m hmJ x0 (List.mem_append_left _ hx0)
        rw [hstart, hx0e] at hm1
        have hlt : m.data.timestamp < x0.data.timestamp := this
        omega
      · rcases List.mem_append.mp hmRun with hmr | hmc
        · exact htrue m hmr
        · exfalso
          have : tsLT x1 m := hcrosslt x1 hx1 m hmc
          rw [hend, hx1e] at hm2
          have hlt : x1.data.timestamp < m.data.timestamp := this
          omega
    · refine ⟨pr.2, ?_, ?_, hcfalse, ?_⟩
      · exact mem_run_mem_series _ pr hpr pr.2 (by simp [blockOf])
      · rw [hend, hx1e]
        exact hcrosslt x1 hx1 pr.2 (by simp)
      · intro m hm hm1
        rw [hms_eq] at hm
        rcases List.mem_append.mp hm with hmJ | hmRun
        · exfalso
          have : tsLT m x0 :=
            hJlt m hmJ x0 (List.mem_append_left _ hx0)
          have hlt : m.data.timestamp < x0.data.timestamp := this
          rw [hend] at hm1
          rw [← hx0e] at hlt
          omega
        · rcases List.mem_append.mp hmRun with hmr | hmc
          · exfalso
            have : m.data.timestamp ≤ runEnd pr.1 :=
              sorted_le_runEnd pr.1 hrunp m hmr
            rw [hend] at hm1
            omega
          · rcases List.mem_cons.mp hmc with rfl | hmc2
            · exact le_refl _
            · have : tsLT pr.2 m := (List.pairwise_cons.mp hcR).1 m hmc2
              exact le_of_lt this

/-! ### Concrete witnesses for C3, C5 and C9 -/

/-- A trailing open run of 4 calima hours after one committed episode. -/
def tailO : List AirMeasurement :=
  [mm6 4 (some 200), mm6 5 (some 200), mm6 6 (some 200), mm6 7 (some 200)]

def dbOpen : AirDB :=
  { locations := ["x"], measurements := prefix6 ++ tailO, events := [] }

/-- Witness for C3: on `dbOpen` the trailing 4-hour open run yields no
episode; the only committed episode ends before the open run starts. -/
theorem c3_open_run_excluded_witness :
    ((locMeasurements dbOpen "x").Pairwise tsLT ∧
      scannedSeries dbOpen "x" = prefix6 ++ tailO ∧
      tailO ≠ [] ∧ (∀ x ∈ tailO, is_hour_calima x = true) ∧
      (detect_events dbOpen "x").1.map
        (fun e => (e.start_time, e.end_time)) = [(0, 2)]) ∧
    ∀ e ∈ (detect_events dbOpen "x").1,
      e.end_time < runStart tailO ∧
      ∃ c ∈ scannedSeries dbOpen "x",
        is_hour_calima c = false ∧ e.end_time < c.data.timestamp :=
  ⟨⟨by decide, by decide, by decide, by decide, by decide⟩,
    c3_open_run_excluded dbOpen "x" prefix6 tailO (by decide) (by decide)
      (by decide) (by decide)⟩

/-- A series whose pm10 values are all null but whose dust values drive a
single committed episode. -/
def db5 : AirDB :=
  { locations := ["x"], measurements := prefix6, events := [] }

/-- The episode committed on `db5` (and the first one committed on `db6`):
null pm10 throughout the run gives `peak_pm10 = 0` while `peak_dust = 200`. -/
def evA : CalimaEvent :=
  { location := "x", start_time := 0, end_time := 2,
    peak_pm10 := 0, peak_dust := 200, peak_aod := 0 }

/-- Witness for C5 at a concrete all-null-pm10 run. -/
theorem c5_peaks_witness :
    (evA ∈ (detect_events db5 "x").1 ∧ evA.peak_pm10 = 0 ∧
      evA.peak_dust = 200) ∧
    (∃ run, run ≠ [] ∧ (∀ x ∈ run, is_hour_calima x = true) ∧
      (∀ x ∈ run, x ∈ scannedSeries db5 "x") ∧
      evA.start_time = runStart run ∧ evA.end_time = runEnd run ∧
      evA.peak_pm10 = specPeak (fun d => d.pm10) run ∧
      evA.peak_dust = specPeak (fun d => d.dust) run ∧
      evA.peak_aod = specPeak (fun d => d.aod) run ∧
      ((∀ x ∈ run, x.data.pm10 = none) → evA.peak_pm10 = 0) ∧
      ((∀ x ∈ run, x.data.dust = none) → evA.peak_dust = 0)) :=
  ⟨⟨by decide, by decide, by decide⟩, c5_peaks db5 "x" evA (by decide)⟩

/-- Witness for C9 at a concrete committed episode. -/
theorem c9_invariants_witness :
    ((locMeasurements db6 "x").Pairwise tsLT ∧
      evA ∈ (detect_events db6 "x").1) ∧
    ((∃ m ∈ scannedSeries db6 "x", m.data.timestamp = evA.start_time) ∧
     (∃ m ∈ scannedSeries db6 "x", m.data.timestamp = evA.end_time) ∧
     evA.start_time < evA.end_time ∧
     (∀ m ∈ scannedSeries db6 "x",
        evA.start_time ≤ m.data.timestamp →
        m.data.timestamp ≤ evA.end_time → is_hour_calima m = true) ∧
     (∃ c ∈ scannedSeries db6 "x", evA.end_time < c.data.timestamp ∧
        is_hour_calima c = false ∧
        ∀ m ∈ scannedSeries db6 "x", evA.end_time < m.data.timestamp →
          c.data.timestamp ≤ m.data.timestamp)) :=
  ⟨⟨by decide, by decide⟩, c9_invariants db6 "x" (by decide) evA (by decide)⟩

/-! ### Claim C7: resuming at the previous end timestamp -/

def evB : CalimaEvent :=
  { location := "x", start_time := 0, end_time := 2,
    peak_pm10 := 0, peak_dust := 200, peak_aod := 0 }

def db7 : AirDB :=
  { locations := ["x"],
    measurements :=
      [mm6 2 (some 200), mm6 3 (some 200), mm6 4 (some 200), mm6 5 (some 10)],
    events := [evB] }

/-- C7 (counterexample): a database state in which the newest stored episode
ends at hour 2 while the stored hours 2-4 are all calima and hour 5 is not
(reachable through the repository API, e.g. `update_measurement` after the
episode was stored).  The re-scan starts at hour 2 inclusive, opens a run at
hour 2 and commits an episode whose `start_time` equals the resume point —
refuting "the re-examined hour at T never starts a new run". -/
theorem c7_counterexample :
    ((get_calima_events db7 "x").head?.map (fun e => e.end_time) = some 2) ∧
    ((detect_events db7 "x").1.map (fun e => e.start_time) = [2]) := by decide

/-- C7 (amended): with a newest stored episode ending at `T`, the scan
fetches exactly the sub-series with timestamps in `[T, +∞)`, inclusive of
`T`; the re-examined hour at `T` can in general re-open a run (see the
counterexample), but when the hour immediately following `T` in the fetched
series is non-calima — as it is when that hour closed the prior episode and
the stored data has not changed — no newly committed episode has
`start_time = T`. -/
theorem c7_resume_inclusive (db : AirDB) (location : String) (E : CalimaEvent)
    (hS : (locMeasurements db location).Pairwise tsLT)
    (hhead : (get_calima_events db location).head? = some E) :
    scannedSeries db location =
      (locMeasurements db location).filter
        (fun m => decide (E.end_time ≤ m.data.timestamp)) ∧
    ((∀ c, (scannedSeries db location).tail.head? = some c →
        is_hour_calima c = false) →
      ∀ e ∈ (detect_events db location).1, e.start_time ≠ E.end_time) := by
  have hloc : location ∈ db.locations := by
    by_contra h
    rw [get_calima_events, if_neg h] at hhead
    cases hhead
  have hfetch : scannedSeries db location =
      (locMeasurements db location).filter
        (fun m => decide (E.end_time ≤ m.data.timestamp)) := by
    rw [scannedSeries, hhead]
    show get_range db location E.end_time ⊤ = _
    exact get_range_top_eq db location E.end_time hloc hS
  refine ⟨hfetch, ?_⟩
  intro hclose e he heq
  by_cases hms : scannedSeries db location = []
  · rw [detect_events_of_empty db location hms] at he
    cases he
  · rw [(detect_events_of_ne db location hms).1] at he
    obtain ⟨pr, hpr, hlen, hee⟩ :=
      mem_commitsOf_repo db location hloc _ e he
    have hrne : pr.1 ≠ [] := by
      intro h; rw [h] at hlen; simp at hlen
    obtain ⟨p0, p1, pt, hpr1⟩ : ∃ p0 p1 pt, pr.1 = p0 :: p1 :: pt := by
      cases h1 : pr.1 with
      | nil => rw [h1] at hlen; simp at hlen
      | cons a t =>
        cases h2 : t with
        | nil => rw [h1, h2] at hlen; simp at hlen
        | cons b t2 => exact ⟨a, b, t2, rfl⟩
    have hshape := splitRunsAux_shape (scannedSeries db location) []
      (by intro x hx; cases hx)
    have htrue := (hshape.1 pr hpr).1
    obtain ⟨P1, P2, hP⟩ := List.append_of_mem hpr
    have hms_eq : scannedSeries db location =
        ((P1.map blockOf).flatten) ++
          (pr.1 ++ (pr.2 ::
            (((P2.map blockOf).flatten) ++
              (splitRuns (scannedSeries db location)).2))) := by
      have hflat := splitRuns_flat (scannedSeries db location)
      rw [hP] at hflat
      conv_lhs => rw [hflat]
      simp [blockOf, List.append_assoc]
    set J := (P1.map blockOf).flatten with hJdef
    set R := ((P2.map blockOf).flatten) ++
      (splitRuns (scannedSeries db location)).2 with hRdef
    have hstart : e.start_time = runStart pr.1 := by rw [hee]; rfl
    have hp0T : p0.data.timestamp = E.end_time := by
      rw [hstart] at heq
      rw [hpr1] at heq
      exact heq
    have hsorted := scannedSeries_sorted db location hS
    have hJnil : J = [] := by
      cases hJcase : J with
      | nil => rfl
      | cons j0 J2 =>
        exfalso
        -- j0 is in the fetched series, hence at or after the resume point
        have hj0mem : j0 ∈ scannedSeries db location := by
          rw [hms_eq, hJcase]; simp
        have hj0ge : E.end_time ≤ j0.data.timestamp := by
          rw [hfetch] at hj0mem
          have := List.mem_filter.mp hj0mem
          simpa using this.2
        -- but j0 precedes the run that starts at the resume point
        have hj0lt : tsLT j0 p0 := by
          rw [hms_eq] at hsorted
          refine (List.pairwise_append.mp hsorted).2.2 j0 ?_ p0 ?_
          · rw [hJcase]; simp
          · rw [hpr1]; simp
        have : j0.data.timestamp < E.end_time := by
          rw [← hp0T]; exact hj0lt
        omega
    -- the series starts with the run itself
    have hseries : scannedSeries db location =
        p0 :: p1 :: (pt ++ (pr.2 :: R)) := by
      rw [hms_eq, hJnil, hpr1]
      simp
    have hc : is_hour_calima p1 = false := by
      apply hclose
      rw [hseries]
      rfl
    have : is_hour_calima p1 = true := htrue p1 (by rw [hpr1]; simp)
    rw [this] at hc
    cases hc

/-- A database in which the hour after the resume point is non-calima (the
hour that closed the stored episode), with a later fresh run at hours 4-6. -/
def db7w : AirDB :=
  { locations := ["x"],
    measurements :=
      [mm6 2 (some 200), mm6 3 (some 10), mm6 4 (some 200),
       mm6 5 (some 200), mm6 6 (some 200), mm6 7 (some 10)],
    events := [evB] }

/-- Witness for the amended C7 theorem. -/
theorem c7_resume_inclusive_witness :
    ((locMeasurements db7w "x").Pairwise tsLT ∧
      (get_calima_events db7w "x").head? = some evB ∧
      (detect_events db7w "x").1.map (fun e => e.start_time) = [4]) ∧
    (scannedSeries db7w "x" =
      (locMeasurements db7w "x").filter
        (fun m => decide (evB.end_time ≤ m.data.timestamp)) ∧
     ∀ e ∈ (detect_events db7w "x").1, e.start_time ≠ evB.end_time) := by
  have h := c7_resume_inclusive db7w "x" evB (by decide) (by decide)
  refine ⟨⟨by decide, by decide, by decide⟩, h.1, h.2 ?_⟩
  intro c hc
  rw [(by decide : (scannedSeries db7w "x").tail.head? =
    some (mm6 3 (some 10)))] at hc
  injection hc with h2
  rw [← h2]
  decide

/-! ### Claim C4: idempotence of `detect_events` -/

theorem runEnd_eq_getLast :
    ∀ (l : List AirMeasurement) (h : l ≠ []),
      runEnd l = (l.getLast h).data.timestamp := by
  intro l
  induction l with
  | nil => intro h; exact absurd rfl h
  | cons a t ih =>
    intro h
    cases t with
    | nil => rfl
    | cons b t2 =>
      show runEnd (b :: t2) = _
      rw [ih (by simp)]
      rw [List.getLast_cons (by simp : b :: t2 ≠ [])]

theorem filter_ge_sub (S : List AirMeasurement) (P : AirMeasurement → Bool)
    (T : ℕ) (hP : ∀ m, T ≤ m.data.timestamp → P m = true) :
    (S.filter P).filter (fun m => decide (T ≤ m.data.timestamp)) =
      S.filter (fun m => decide (T ≤ m.data.timestamp)) := by
  rw [List.filter_filter]
  apply List.filter_congr
  intro x _
  by_cases h : T ≤ x.data.timestamp
  · rw [hP x h]
    simp [h]
  · simp [h]

theorem commitsOf_repo_all_loc (db : AirDB) (location : String)
    (hloc : location ∈ db.locations)
    (prs : List (List AirMeasurement × AirMeasurement)) :
    ∀ e ∈ commitsOf (repoCommit db location) prs, e.location = location := by
  intro e he
  obtain ⟨pr, _, _, hee⟩ := mem_commitsOf_repo db location hloc prs e he
  rw [hee]
  rfl

theorem locEvents_append (db : AirDB) (L : List CalimaEvent)
    (location : String) (h : ∀ e ∈ L, e.location = location) :
    locEvents { db with events := db.events ++ L } location =
      locEvents db location ++ L := by
  show (db.events ++ L).filter _ = _
  rw [List.filter_append]
  congr 1
  rw [List.filter_eq_self]
  intro a ha
  simpa using h a ha

theorem locEvents_eq_nil_of_head_none (db : AirDB) (location : String)
    (hloc : location ∈ db.locations)
    (h : (get_calima_events db location).head? = none) :
    locEvents db location = [] := by
  rw [List.head?_eq_none_iff, get_calima_events_eq db location hloc] at h
  apply List.eq_nil_of_length_eq_zero
  rw [← List.length_insertionSort evGE (locEvents db location), h]
  rfl

/-- C4: `detect_events` is idempotent for a fixed data set: given the
storage invariants (strictly ascending per-location timestamps; stored
episodes for the location end after they start), a second call right after
any call commits nothing — it returns `[]` and leaves the database exactly
as the first call left it, because the resume point advances to the newest
committed episode's `end_time` and nothing at or before it can form a new
qualifying closed run. -/
theorem c4_idempotent (db : AirDB) (location : String)
    (hS : (locMeasurements db location).Pairwise tsLT)
    (hE : ∀ ev ∈ db.events, ev.location = location →
      ev.start_time < ev.end_time) :
    (detect_events (detect_events db location).2 location).1 = [] ∧
    (detect_events (detect_events db location).2 location).2 =
      (detect_events db location).2 := by
  by_cases hms : scannedSeries db location = []
  · rw [detect_events_of_empty db location hms]
    rw [detect_events_of_empty db location hms]
    exact ⟨rfl, rfl⟩
  · have hloc := scannedSeries_loc_of_ne db location hms
    have hdet1 := detect_events_of_ne db location hms
    by_cases hevs : (detect_events db location).1 = []
    · have hdb1 : (detect_events db location).2 = db := by
        rw [hdet1.2, hevs]
        simp
      rw [hdb1]
      exact ⟨hevs, hdb1⟩
    · -- at least one episode was committed in the first call
      have hevs1 : (detect_events db location).1 =
          commitsOf (repoCommit db location)
            (splitRuns (scannedSeries db location)).1 := hdet1.1
      obtain ⟨ek, hek⟩ : ∃ ek, (detect_events db location).1.getLast? =
          some ek := by
        cases hv : (detect_events db location).1.getLast? with
        | none => exact absurd (List.getLast?_eq_none_iff.mp hv) hevs
        | some x => exact ⟨x, rfl⟩
      have hfm : (detect_events db location).1 =
          (splitRuns (scannedSeries db location)).1.filterMap
            (fun pr => if 3 ≤ pr.1.length then
              some (eventOf location pr.1) else none) := by
        rw [hevs1, commitsOf_repo db location hloc]
      have hsplitlast := filterMap_getLast?_split
        (fun pr : List AirMeasurement × AirMeasurement =>
          if 3 ≤ pr.1.length then some (eventOf location pr.1) else none)
        (splitRuns (scannedSeries db location)).1 ek
        (by rw [← hfm]; exact hek)
      obtain ⟨P1, prK, P2, hPdec, hgK0, hP2nil⟩ := hsplitlast
      have hgK : (if 3 ≤ prK.1.length then
          some (eventOf location prK.1) else none) = some ek := hgK0
      have hKlen : 3 ≤ prK.1.length := by
        by_contra h
        rw [if_neg h] at hgK
        cases hgK
      have hKev : ek = eventOf location prK.1 := by
        rw [if_pos hKlen] at hgK
        exact (Option.some.inj hgK).symm
      have hKne : prK.1 ≠ [] := by
        intro h; rw [h] at hKlen; simp at hKlen
      have hP2short : ∀ pr ∈ P2, pr.1.length < 3 := by
        intro pr hpr
        by_contra hge
        have hge2 : 3 ≤ pr.1.length := Nat.le_of_not_lt hge
        have := List.filterMap_eq_nil_iff.mp hP2nil pr hpr
        rw [if_pos hge2] at this
        cases this
      have hshape := splitRunsAux_shape (scannedSeries db location) []
        (by intro x hx; cases hx)
      have hKmem : prK ∈ (splitRuns (scannedSeries db location)).1 := by
        rw [hPdec]; simp
      have hKtrue := (hshape.1 prK hKmem).1
      have hKfalse := (hshape.1 prK hKmem).2
      have htail1true := hshape.2
      have hms1sorted : (scannedSeries db location).Pairwise tsLT :=
        scannedSeries_sorted db location hS
      have hflat := splitRuns_flat (scannedSeries db location)
      rw [hPdec] at hflat
      have hms1eq : scannedSeries db location =
          ((P1.map blockOf).flatten) ++
            (prK.1 ++ (prK.2 ::
              (((P2.map blockOf).flatten) ++
                (splitRuns (scannedSeries db location)).2))) := by
        conv_lhs => rw [hflat]
        simp [blockOf, List.append_assoc]
      have hT : ek.end_time = runEnd prK.1 := by rw [hKev]; rfl
      have hek_start : ek.start_time = runStart prK.1 := by rw [hKev]; rfl
      have hmTts : (prK.1.getLast hKne).data.timestamp = runEnd prK.1 :=
        (runEnd_eq_getLast prK.1 hKne).symm
      have hKsplit : prK.1.dropLast ++ [prK.1.getLast hKne] = prK.1 :=
        List.dropLast_append_getLast hKne
      have hsorted2 := hms1sorted
      rw [hms1eq] at hsorted2
      obtain ⟨hFB1p, hrest1, hFB1lt⟩ := List.pairwise_append.mp hsorted2
      obtain ⟨hKp, hcRp, hKlt⟩ := List.pairwise_append.mp hrest1
      obtain ⟨x0, hx0mem, hx0ts⟩ := runStart_mem prK.1 hKne
      have hx0in : x0 ∈ scannedSeries db location := by
        rw [hms1eq]
        exact List.mem_append.mpr (Or.inr (List.mem_append.mpr
          (Or.inl hx0mem)))
      have hmTin : prK.1.getLast hKne ∈ scannedSeries db location := by
        rw [hms1eq]
        exact List.mem_append.mpr (Or.inr (List.mem_append.mpr
          (Or.inl (List.getLast_mem hKne))))
      -- the two facts that depend on whether the first call resumed
      have key : (List.filter
            (fun m => decide (ek.end_time ≤ m.data.timestamp))
            (locMeasurements db location) =
          List.filter (fun m => decide (ek.end_time ≤ m.data.timestamp))
            (scannedSeries db location)) ∧
          (∀ x ∈ locEvents db location, x.start_time < ek.start_time) := by
        cases hold : (get_calima_events db location).head? with
        | none =>
          have hms1S : scannedSeries db location =
              locMeasurements db location := by
            rw [scannedSeries, hold]
            show get_measurements db location = _
            exact get_measurements_eq db location hloc hS
          constructor
          · rw [hms1S]
          · intro x hx
            rw [locEvents_eq_nil_of_head_none db location hloc hold] at hx
            cases hx
        | some E0 =>
          have hms1S : scannedSeries db location =
              (locMeasurements db location).filter
                (fun m => decide (E0.end_time ≤ m.data.timestamp)) := by
            rw [scannedSeries, hold]
            show get_range db location E0.end_time ⊤ = _
            exact get_range_top_eq db location E0.end_time hloc hS
          have hE0T : E0.end_time ≤ ek.end_time := by
            have hmTin2 := hmTin
            rw [hms1S] at hmTin2
            have h2 := (List.mem_filter.mp hmTin2).2
            simp only [decide_eq_true_eq] at h2
            rw [hT, ← hmTts]
            exact h2
          constructor
          · rw [hms1S, filter_ge_sub]
            intro m hm
            simp only [decide_eq_true_eq]
            omega
          · intro x hx
            have hmax := sortDesc_head_max (locEvents db location) E0
              (by rw [← get_calima_events_eq db location hloc]; exact hold)
            have hxle : x.start_time ≤ E0.start_time := hmax.2 x hx
            have hE0mem := hmax.1
            have hE0loc : E0.location = location := by
              have := (List.mem_filter.mp hE0mem).2
              simpa using this
            have hE0db : E0 ∈ db.events := (List.mem_filter.mp hE0mem).1
            have hE0lt : E0.start_time < E0.end_time := hE E0 hE0db hE0loc
            have hE0le : E0.end_time ≤ ek.start_time := by
              have hx0in2 := hx0in
              rw [hms1S] at hx0in2
              have h2 := (List.mem_filter.mp hx0in2).2
              simp only [decide_eq_true_eq] at h2
              rw [hek_start, hx0ts]
              exact h2
            omega
      -- the new events all carry this location
      have hloc1 : location ∈
          ({ db with events := db.events ++ (detect_events db location).1 }
            : AirDB).locations := hloc
      have hlocEv1 : locEvents
          { db with events := db.events ++ (detect_events db location).1 }
          location = locEvents db location ++ (detect_events db location).1 := by
        apply locEvents_append
        rw [hevs1]
        exact commitsOf_repo_all_loc db location hloc _
      -- the first call's committed list ends with ek
      have hevsplit : (detect_events db location).1 =
          (P1.filterMap (fun pr => if 3 ≤ pr.1.length then
            some (eventOf location pr.1) else none)) ++ [ek] := by
        rw [hfm, hPdec, List.filterMap_append, List.filterMap_cons, hgK,
          hP2nil]
      -- every earlier committed episode starts strictly before ek
      have hP1lt : ∀ x ∈ P1.filterMap (fun pr => if 3 ≤ pr.1.length then
          some (eventOf location pr.1) else none),
          x.start_time < ek.start_time := by
        intro x hx
        obtain ⟨pr, hpr, hg⟩ := List.mem_filterMap.mp hx
        have hprlen : 3 ≤ pr.1.length := by
          by_contra h
          rw [if_neg h] at hg
          cases hg
        have hxev : x = eventOf location pr.1 := by
          rw [if_pos hprlen] at hg
          exact (Option.some.inj hg).symm
        have hpack := splitRuns_sorted_pack (scannedSeries db location)
          hms1sorted
        have hbet := hpack.2.1
        rw [hPdec] at hbet
        have hrel : ∀ a ∈ blockOf pr, ∀ b ∈ blockOf prK, tsLT a b :=
          (List.pairwise_append.mp hbet).2.2 pr hpr prK (by simp)
        obtain ⟨u, hub, hue⟩ := runStart_mem_block pr
          (by intro hnil; rw [hnil] at hprlen; simp at hprlen)
        obtain ⟨v, hvb, hve⟩ := runStart_mem_block prK hKne
        rw [hxev, hek_start]
        show runStart pr.1 < runStart prK.1
        rw [hue, hve]
        exact hrel u hub v hvb
      -- the resume point of the second call is ek's end
      have hek_head : (get_calima_events
          { db with events := db.events ++ (detect_events db location).1 }
          location).head? = some ek := by
        rw [get_calima_events_eq _ location hloc1, hlocEv1, hevsplit]
        apply sortDesc_head_of_unique_max
        · simp
        · intro x hx hxne
          rcases List.mem_append.mp hx with hxold | hxnew
          · exact key.2 x hxold
          · rcases List.mem_append.mp hxnew with hxP1 | hxek
            · exact hP1lt x hxP1
            · simp at hxek
              exact absurd hxek hxne
      -- the second call therefore scans the tail from ek's end onward
      have hms2 : scannedSeries
          { db with events := db.events ++ (detect_events db location).1 }
          location =
          List.filter (fun m => decide (ek.end_time ≤ m.data.timestamp))
            (scannedSeries db location) := by
        rw [scannedSeries, hek_head]
        show get_range _ location ek.end_time ⊤ = _
        rw [get_range_top_eq _ location ek.end_time hloc1 hS]
        exact key.1
      -- and that tail is: last hour of ek's run, its closer, then the rest
      have hms2eq : List.filter
          (fun m => decide (ek.end_time ≤ m.data.timestamp))
          (scannedSeries db location) =
          prK.1.getLast hKne :: (prK.2 ::
            (((P2.map blockOf).flatten) ++
              (splitRuns (scannedSeries db location)).2)) := by
        have hms1eq2 : scannedSeries db location =
            (((P1.map blockOf).flatten) ++ prK.1.dropLast) ++
              (prK.1.getLast hKne :: (prK.2 ::
                (((P2.map blockOf).flatten) ++
                  (splitRuns (scannedSeries db location)).2))) := by
          conv_lhs => rw [hms1eq]
          conv_lhs => rw [← hKsplit]
          simp [List.append_assoc]
        conv_lhs => rw [hms1eq2]
        rw [List.filter_append]
        have hnil2 : List.filter
            (fun m => decide (ek.end_time ≤ m.data.timestamp))
            (((P1.map blockOf).flatten) ++ prK.1.dropLast) = [] := by
          rw [List.filter_eq_nil_iff]
          intro a ha
          have halt : a.data.timestamp < ek.end_time := by
            rw [hT, ← hmTts]
            rcases List.mem_append.mp ha with haF | haD
            · exact hFB1lt a haF (prK.1.getLast hKne)
                (List.mem_append.mpr (Or.inl (List.getLast_mem hKne)))
            · have hp := hKp
              rw [← hKsplit] at hp
              exact (List.pairwise_append.mp hp).2.2 a haD
                (prK.1.getLast hKne) (by simp)
          simp only [decide_eq_true_eq]
          omega
        have hall : List.filter
            (fun m => decide (ek.end_time ≤ m.data.timestamp))
            (prK.1.getLast hKne :: (prK.2 ::
              (((P2.map blockOf).flatten) ++
                (splitRuns (scannedSeries db location)).2))) =
            prK.1.getLast hKne :: (prK.2 ::
              (((P2.map blockOf).flatten) ++
                (splitRuns (scannedSeries db location)).2)) := by
          rw [List.filter_eq_self]
          intro a ha
          simp only [decide_eq_true_eq]
          rcases List.mem_cons.mp ha with rfl | ha2
          · rw [hT, ← hmTts]
          · have := hKlt (prK.1.getLast hKne) (List.getLast_mem hKne) a ha2
            have h2 : (prK.1.getLast hKne).data.timestamp <
                a.data.timestamp := this
            rw [hT, ← hmTts]
            omega
        rw [hnil2, hall]
        rfl
      have hms2ne : scannedSeries
          { db with events := db.events ++ (detect_events db location).1 }
          location ≠ [] := by
        rw [hms2, hms2eq]
        simp
      have hdet2 := detect_events_of_ne _ location hms2ne
      -- the closed runs of the re-scan: a 1-hour run, then only short runs
      have hsplit2 : (splitRuns (scannedSeries
          { db with events := db.events ++ (detect_events db location).1 }
          location)).1 = ([prK.1.getLast hKne], prK.2) :: P2 := by
        rw [hms2, hms2eq]
        have hmTtrue : is_hour_calima (prK.1.getLast hKne) = true :=
          hKtrue _ (List.getLast_mem hKne)
        show (splitRunsAux [] _).1 = _
        rw [show splitRunsAux []
            (prK.1.getLast hKne :: (prK.2 ::
              (((P2.map blockOf).flatten) ++
                (splitRuns (scannedSeries db location)).2))) =
            splitRunsAux [prK.1.getLast hKne] (prK.2 ::
              (((P2.map blockOf).flatten) ++
                (splitRuns (scannedSeries db location)).2)) by
          simp [splitRunsAux, hmTtrue]]
        rw [show splitRunsAux [prK.1.getLast hKne] (prK.2 ::
            (((P2.map blockOf).flatten) ++
              (splitRuns (scannedSeries db location)).2)) =
            (([prK.1.getLast hKne], prK.2) ::
              (splitRunsAux []
                (((P2.map blockOf).flatten) ++
                  (splitRuns (scannedSeries db location)).2)).1,
              (splitRunsAux []
                (((P2.map blockOf).flatten) ++
                  (splitRuns (scannedSeries db location)).2)).2) by
          simp [splitRunsAux, hKfalse]]
        have hreb := splitRuns_rebuild P2
          (splitRuns (scannedSeries db location)).2
          (by
            intro pr hpr
            have hprmem : pr ∈ (splitRuns (scannedSeries db location)).1 := by
              rw [hPdec]
              exact List.mem_append.mpr (Or.inr (List.mem_cons_of_mem _ hpr))
            exact hshape.1 pr hprmem)
          htail1true
        have hreb1 : (splitRunsAux []
            (((P2.map blockOf).flatten) ++
              (splitRuns (scannedSeries db location)).2)).1 = P2 := by
          have := congrArg Prod.fst hreb
          simpa [splitRuns] using this
        rw [hreb1]
      -- nothing qualifies on the re-scan
      have hevs2 : (detect_events
          { db with events := db.events ++ (detect_events db location).1 }
          location).1 = [] := by
        rw [hdet2.1, hsplit2]
        apply commitsOf_eq_nil_of_short
        intro pr hpr
        rcases List.mem_cons.mp hpr with rfl | hpr2
        · simp
        · exact hP2short pr hpr2
      constructor
      · rw [hdet1.2]
        exact hevs2
      · rw [hdet1.2]
        rw [hdet2.2, hevs2]
        simp

/-- Witness for C4: on `db7w` the first call commits the 4-6 episode, the
second call returns `[]` and leaves the database unchanged. -/
theorem c4_idempotent_witness :
    ((locMeasurements db7w "x").Pairwise tsLT ∧
      (∀ ev ∈ db7w.events, ev.location = "x" →
        ev.start_time < ev.end_time)) ∧
    ((detect_events (detect_events db7w "x").2 "x").1 = [] ∧
     (detect_events (detect_events db7w "x").2 "x").2 =
       (detect_events db7w "x").2) :=
  ⟨⟨by decide, by decide⟩, c4_idempotent db7w "x" (by decide) (by decide)⟩

end CalimaSpec
